import Mathlib

/-!
Verification development for reop (src/reop.c): a shallow embedding of the
file-format and cryptographic-envelope layer, with theorems settling the
frozen claims about it.

Modelling conventions:
* Byte buffers and text are `List Char` / `List Nat`; opaque fixed-width
  byte fields (randomid, salts, nonces, keys) are `Nat`.
* The external libsodium primitives (crypto_secretbox, crypto_box,
  crypto_sign) are idealized: a ciphertext is the plaintext XOR-masked with a
  keystream derived from key and nonce, and the authentication tag is a
  symbolic value recording (key, nonce, ciphertext); tag verification
  succeeds exactly on the matching triple.  Public keys are identified with
  their secret scalar (`crypto_box_keypair`/`crypto_sign_keypair` produce
  matching halves), and the crypto_box shared secret is the unordered pair
  of the two scalars.
* The external base64 codec (reopbase64.h, not in src/) is modelled from the
  spec as an injective whitespace-free serialization of byte lists into an
  armor-safe alphabet (digits and `A`), with a decoder that skips
  whitespace, as the spec requires of the base64 layer.
* Randomness (`randombytes`, key generation) is passed in explicitly.
-/

/-- C `isspace` for the ASCII execution character set (whitespace skipped by
`sscanf`'s `%s` and by the base64 decoder). -/
def isCSpace (c : Char) : Bool :=
  c == ' ' || c == '\t' || c == '\n' || c == '\x0b' || c == '\x0c' || c == '\r'

/-- `strncmp(s, pat, strlen(pat)) == 0`: `pat` matches at the start of `s`. -/
def strMatch (pat s : List Char) : Bool :=
  s.take pat.length == pat

/-- Index of the first occurrence of `pat` in `s` (C `strstr`, as an index). -/
def strstrIdx (pat : List Char) : List Char → Option Nat
  | [] => if pat = [] then some 0 else none
  | c :: rest =>
    if strMatch pat (c :: rest) then some 0
    else (strstrIdx pat rest).map (· + 1)

/-- The `while ((nextsig = strstr(sigdata + 1, beginsig))) sigdata = nextsig;`
loop of `verifyembedded`: starting from a known occurrence at `cur`, advance
to the last occurrence of `pat` in `s`.  Fuelled; `s.length` fuel always
suffices for a nonempty pattern. -/
def lastLoopF : Nat → List Char → List Char → Nat → Nat
  | 0, _, _, cur => cur
  | fuel + 1, pat, s, cur =>
    match strstrIdx pat (s.drop (cur + 1)) with
    | none => cur
    | some d => lastLoopF fuel pat s (cur + 1 + d)

section StrstrLemmas

theorem strMatch_iff (pat s : List Char) :
    strMatch pat s = true ↔ s.take pat.length = pat := by
  simp [strMatch]

theorem strMatch_append (pat rest : List Char) :
    strMatch pat (pat ++ rest) = true := by
  simp [strMatch, List.take_left]

theorem strstrIdx_eq_none_iff (pat : List Char) (hp : pat ≠ []) (s : List Char) :
    strstrIdx pat s = none ↔ ∀ j, strMatch pat (s.drop j) = false := by
  induction s with
  | nil =>
    simp only [strstrIdx, if_neg hp, List.drop_nil, true_iff]
    intro j
    cases pat with
    | nil => exact absurd rfl hp
    | cons a t => simp [strMatch]
  | cons c rest ih =>
    simp only [strstrIdx]
    by_cases h : strMatch pat (c :: rest) = true
    · simp only [h, if_true]
      constructor
      · intro hcontra; cases hcontra
      · intro hall
        have := hall 0
        simp only [List.drop_zero] at this
        rw [h] at this; cases this
    · simp only [if_neg h, Option.map_eq_none']
      rw [ih]
      constructor
      · intro hall j
        cases j with
        | zero =>
          simp only [List.drop_zero]
          exact Bool.not_eq_true _ ▸ (by simpa using h)
        | succ n =>
          simpa using hall n
      · intro hall j
        have := hall (j + 1)
        simpa using this

theorem strstrIdx_eq_some_iff (pat : List Char) (hp : pat ≠ []) (s : List Char) (i : Nat) :
    strstrIdx pat s = some i ↔
      (strMatch pat (s.drop i) = true ∧ ∀ j, j < i → strMatch pat (s.drop j) = false) := by
  induction s generalizing i with
  | nil =>
    simp only [strstrIdx, if_neg hp]
    constructor
    · intro hcontra; cases hcontra
    · rintro ⟨hm, -⟩
      exfalso
      cases pat with
      | nil => exact hp rfl
      | cons a t => simp [strMatch] at hm
  | cons c rest ih =>
    simp only [strstrIdx]
    by_cases h : strMatch pat (c :: rest) = true
    · simp only [h, if_true]
      constructor
      · rintro ⟨rfl⟩
        exact ⟨by simpa using h, fun j hj => absurd hj (Nat.not_lt_zero j)⟩
      · rintro ⟨hm, hmin⟩
        cases i with
        | zero => rfl
        | succ n =>
          have := hmin 0 (Nat.succ_pos n)
          simp only [List.drop_zero] at this
          rw [h] at this; cases this
    · simp only [if_neg h]
      constructor
      · intro hmap
        rcases Option.map_eq_some'.mp hmap with ⟨k, hk, rfl⟩
        rcases (ih k).mp hk with ⟨hm, hmin⟩
        refine ⟨by simpa using hm, ?_⟩
        intro j hj
        cases j with
        | zero =>
          simpa using (Bool.not_eq_true _ ▸ (by simpa using h))
        | succ n =>
          have := hmin n (by omega)
          simpa using this
      · rintro ⟨hm, hmin⟩
        cases i with
        | zero =>
          simp only [List.drop_zero] at hm
          rw [hm] at h; cases h rfl
        | succ n =>
          have hk : strstrIdx pat rest = some n := by
            rw [ih]
            refine ⟨by simpa using hm, ?_⟩
            intro j hj
            have := hmin (j + 1) (by omega)
            simpa using this
          rw [hk]; rfl

theorem strstrIdx_zero_of_strMatch (pat s : List Char) (hp : pat ≠ [])
    (h : strMatch pat s = true) : strstrIdx pat s = some 0 := by
  cases s with
  | nil =>
    exfalso
    cases pat with
    | nil => exact hp rfl
    | cons a t => simp [strMatch] at h
  | cons c r => simp [strstrIdx, h]

/-- A match of `pat` at offset `j` of `s` pins down the character of `s` at
every window position `j + k`. -/
theorem strMatch_drop_elem (pat s : List Char) (j k : Nat)
    (h : strMatch pat (s.drop j) = true) (hk : k < pat.length) :
    s[j + k]? = pat[k]? := by
  rw [strMatch_iff] at h
  have h1 : pat[k]? = ((s.drop j).take pat.length)[k]? := by rw [h]
  rw [h1, List.getElem?_take, if_pos hk, List.getElem?_drop]

/-- Shift lemma: if no occurrence of `pat` starts inside the prefix `A`, the
first occurrence in `A ++ rest` is the first occurrence in `rest`, shifted. -/
theorem strstrIdx_append_shift (pat A rest : List Char) (hp : pat ≠ [])
    (h : ∀ j, j < A.length → strMatch pat ((A ++ rest).drop j) = false) :
    strstrIdx pat (A ++ rest) = (strstrIdx pat rest).map (· + A.length) := by
  have hdrop : ∀ k : Nat, (A ++ rest).drop (A.length + k) = rest.drop k :=
    fun k => List.drop_append k
  cases hrest : strstrIdx pat rest with
  | none =>
    simp only [Option.map_none']
    rw [strstrIdx_eq_none_iff pat hp] at hrest ⊢
    intro j
    by_cases hj : j < A.length
    · exact h j hj
    · have : (A ++ rest).drop j = rest.drop (j - A.length) := by
        have := hdrop (j - A.length)
        rwa [show A.length + (j - A.length) = j by omega] at this
      rw [this]; exact hrest _
  | some i =>
    simp only [Option.map_some']
    rw [strstrIdx_eq_some_iff pat hp] at hrest ⊢
    obtain ⟨hm, hmin⟩ := hrest
    constructor
    · rw [show i + A.length = A.length + i by omega, hdrop]; exact hm
    · intro j hj
      by_cases hjA : j < A.length
      · exact h j hjA
      · have heq : (A ++ rest).drop j = rest.drop (j - A.length) := by
          have := hdrop (j - A.length)
          rwa [show A.length + (j - A.length) = j by omega] at this
        rw [heq]
        exact hmin _ (by omega)

/-- Truth-value flip helper: a `Bool` that is not `false` is `true`. -/
theorem bool_ne_false (b : Bool) (h : ¬ b = false) : b = true := by
  cases b with
  | false => exact absurd rfl h
  | true => rfl

/-- No occurrence of `pat` can start inside `X` when `pat`'s first character
does not occur in `X`. -/
theorem noStart_head_ne (pat : List Char) (c0 : Char) (hp : pat[0]? = some c0)
    (X rest : List Char) (hX : ∀ c ∈ X, c ≠ c0) :
    ∀ j, j < X.length → strMatch pat ((X ++ rest).drop j) = false := by
  intro j hj
  by_contra hcon
  have hm := bool_ne_false _ hcon
  have hplen : 0 < pat.length := by
    cases pat with
    | nil => cases hp
    | cons a t => simp
  have hchar := strMatch_drop_elem pat (X ++ rest) j 0 hm hplen
  rw [Nat.add_zero, List.getElem?_append_left hj, hp] at hchar
  have hXj : X[j]? = some (X[j]) := List.getElem?_eq_getElem hj
  rw [hXj] at hchar
  have : X[j] = c0 := by injection hchar
  exact hX _ (this ▸ List.getElem_mem _) rfl

/-- No occurrence of a pattern whose only possible newline is its final
character can start inside a single line `X` (followed by its terminating
newline) when some non-final pattern character does not occur in `X`. -/
theorem noStart_line (pat : List Char) (hnl : '\n' ∉ pat.dropLast)
    (c : Char) (hc : c ∈ pat.dropLast)
    (X rest : List Char) (hcX : c ∉ X) :
    ∀ j, j < X.length + 1 → strMatch pat ((X ++ '\n' :: rest).drop j) = false := by
  intro j hj
  by_contra hcon
  have hm := bool_ne_false _ hcon
  obtain ⟨kc, hkc, hkceq⟩ := List.mem_iff_getElem.mp hc
  have hkclt : kc < pat.length - 1 := by
    have := hkc; simp only [List.length_dropLast] at this; omega
  have hkcsome : pat[kc]? = some c := by
    rw [List.getElem?_eq_getElem (by omega : kc < pat.length)]
    rw [← hkceq]
    exact congrArg some (List.getElem_dropLast ..).symm
  have hinX : j + kc < X.length → False := by
    intro hin
    have hchar := strMatch_drop_elem pat (X ++ '\n' :: rest) j kc hm (by omega)
    rw [List.getElem?_append_left hin, hkcsome,
      List.getElem?_eq_getElem hin] at hchar
    have : X[j + kc] = c := by injection hchar
    exact hcX (this ▸ List.getElem_mem _)
  by_cases hcase : j + pat.length ≤ X.length
  · exact hinX (by omega)
  · have hk : X.length - j < pat.length := by omega
    have hchar := strMatch_drop_elem pat (X ++ '\n' :: rest) j (X.length - j) hm hk
    rw [show j + (X.length - j) = X.length from by omega,
      List.getElem?_append_right (Nat.le_refl _), Nat.sub_self] at hchar
    have hnlval : pat[X.length - j]? = some '\n' := by
      rw [← hchar]; simp
    by_cases hlastk : X.length - j < pat.length - 1
    · have hval : pat[X.length - j] = '\n' := by
        have := List.getElem?_eq_getElem hk
        rw [this] at hnlval
        injection hnlval
      have hkd : X.length - j < pat.dropLast.length := by simp; omega
      have : '\n' ∈ pat.dropLast := by
        have hg : pat.dropLast[X.length - j] = '\n' := by
          rw [List.getElem_dropLast]; exact hval
        exact hg ▸ List.getElem_mem _
      exact hnl this
    · exact hinX (by omega)

/-- No occurrence of `pat` can start inside a concrete block `K` that ends in
a newline, provided no fully-contained match exists (a decidable check) and
`pat` contains no newline before its final character. -/
theorem noStart_concreteBlock (pat K rest : List Char)
    (h1 : ∀ j, j < K.length → pat.length + j ≤ K.length → strMatch pat (K.drop j) = false)
    (hKlast : K.getLast? = some '\n') (hnl : '\n' ∉ pat.dropLast) :
    ∀ j, j < K.length → strMatch pat ((K ++ rest).drop j) = false := by
  intro j hj
  by_contra hcon
  have hm := bool_ne_false _ hcon
  have hKne : K ≠ [] := by
    intro h; rw [h] at hj; simp at hj
  by_cases hcase : j + pat.length ≤ K.length
  · have hmK : strMatch pat (K.drop j) = true := by
      rw [strMatch_iff] at hm ⊢
      have hdropeq : (K ++ rest).drop j = K.drop j ++ rest := by
        rw [List.drop_append_eq_append_drop]
        rw [show j - K.length = 0 by omega]
        simp
      rw [hdropeq] at hm
      rwa [List.take_append_of_le_length (by simp; omega)] at hm
    have := h1 j hj (by omega)
    rw [hmK] at this; cases this
  · have hk : K.length - 1 - j < pat.length := by omega
    have hchar := strMatch_drop_elem pat (K ++ rest) j (K.length - 1 - j) hm hk
    have hKlt : K.length - 1 < K.length := by
      cases K with
      | nil => exact absurd rfl hKne
      | cons a t => simp
    rw [show j + (K.length - 1 - j) = K.length - 1 from by omega,
      List.getElem?_append_left hKlt] at hchar
    have hlastval : K[K.length - 1]? = some '\n' := by
      rw [List.getElem?_eq_getElem hKlt]
      rw [List.getLast?_eq_getLast _ hKne] at hKlast
      have := List.getLast_eq_getElem K hKne
      rw [this] at hKlast
      exact congrArg some (by injection hKlast)
    rw [hlastval, List.getElem?_eq_getElem hk] at hchar
    have hval : pat[K.length - 1 - j] = '\n' := by
      injection hchar with h2
      exact h2.symm
    have hklt : K.length - 1 - j < pat.length - 1 := by omega
    have hkd : K.length - 1 - j < pat.dropLast.length := by simp; omega
    have : '\n' ∈ pat.dropLast := by
      have hg : pat.dropLast[K.length - 1 - j] = '\n' := by
        rw [List.getElem_dropLast]; exact hval
      exact hg ▸ List.getElem_mem _
    exact hnl this

/-- The `verifyembedded` advance-to-last loop lands on the last occurrence:
if `pat` matches at `R` and nowhere after `R`, the loop started at any
occurrence `cur ≤ R` returns `R` (given enough fuel). -/
theorem lastLoopF_eq (pat s : List Char) (hp : pat ≠ []) (R : Nat)
    (hR : strMatch pat (s.drop R) = true)
    (hafter : strstrIdx pat (s.drop (R + 1)) = none) :
    ∀ fuel cur, cur ≤ R → R - cur < fuel → lastLoopF fuel pat s cur = R := by
  intro fuel
  induction fuel with
  | zero => intro cur _ hfuel; omega
  | succ f ih =>
    intro cur hcur hfuel
    by_cases hcR : cur = R
    · subst hcR
      simp only [lastLoopF, hafter]
    · have hlt : cur < R := by omega
      have hmatch : strMatch pat ((s.drop (cur + 1)).drop (R - cur - 1)) = true := by
        rw [List.drop_drop, show cur + 1 + (R - cur - 1) = R by omega]
        exact hR
      cases hfind : strstrIdx pat (s.drop (cur + 1)) with
      | none =>
        rw [strstrIdx_eq_none_iff pat hp] at hfind
        rw [hfind (R - cur - 1)] at hmatch; cases hmatch
      | some d =>
        obtain ⟨hmd, hmind⟩ := (strstrIdx_eq_some_iff pat hp _ d).mp hfind
        have hdle : d ≤ R - cur - 1 := by
          by_contra hdgt
          have := hmind (R - cur - 1) (by omega)
          rw [hmatch] at this; cases this
        simp only [lastLoopF, hfind]
        exact ih (cur + 1 + d) (by omega) (by omega)

end StrstrLemmas

/-! ## Armor payload codec

The external `reopbase64` library is not part of src/.  Modelled from the
spec: the payload codec is an injective, whitespace-free serialization of a
byte list into an armor-safe alphabet, whose decoder skips whitespace
(line breaks) exactly as the spec's base64 layer does ("accumulate
subsequent lines (stripping line breaks)", standard alphabet without `-`).
Here each number is written in decimal digits (least significant first) and
numbers are separated by `A`. -/

/-- Decimal digit to character. -/
def digitChar (d : Nat) : Char :=
  match d with
  | 0 => '0' | 1 => '1' | 2 => '2' | 3 => '3' | 4 => '4'
  | 5 => '5' | 6 => '6' | 7 => '7' | 8 => '8' | _ => '9'

/-- Character back to decimal digit (`none` on a non-digit). -/
def digitVal (c : Char) : Option Nat :=
  if c == '0' then some 0 else if c == '1' then some 1
  else if c == '2' then some 2 else if c == '3' then some 3
  else if c == '4' then some 4 else if c == '5' then some 5
  else if c == '6' then some 6 else if c == '7' then some 7
  else if c == '8' then some 8 else if c == '9' then some 9 else none

/-- Little-endian decimal digits of `n` (fuelled structural recursion). -/
def natDigitsAux : Nat → Nat → List Nat
  | 0, _ => []
  | _ + 1, 0 => []
  | fuel + 1, n + 1 => (n + 1) % 10 :: natDigitsAux fuel ((n + 1) / 10)

/-- Little-endian decimal digits of `n` (empty for 0). -/
def natDigits (n : Nat) : List Nat := natDigitsAux n n

/-- Value of a little-endian decimal digit list. -/
def fromDigits : List Nat → Nat
  | [] => 0
  | d :: ds => d + 10 * fromDigits ds

/-- Character chunk encoding one number. -/
def natChars (n : Nat) : List Char :=
  if n = 0 then ['0'] else (natDigits n).map digitChar

/-- Decode one chunk back to a number. -/
def decodeChunk (s : List Char) : Option Nat :=
  if s = [] then none else (s.mapM digitVal).map fromDigits

/-- Join chunks with `A` separators. -/
def joinChunks : List (List Char) → List Char
  | [] => []
  | [c] => c
  | c :: rest => c ++ 'A' :: joinChunks rest

/-- Split a character list at `A` separators. -/
def splitChunks : List Char → List (List Char)
  | [] => [[]]
  | c :: rest =>
    match splitChunks rest with
    | [] => [[c]]
    | h :: t => if c = 'A' then [] :: h :: t else (c :: h) :: t

/-- Modelled from the spec: payload encoder (stands in for `reopb64_ntop`). -/
def codecEncode (l : List Nat) : List Char :=
  joinChunks (l.map natChars)

/-- Modelled from the spec: payload decoder (stands in for `reopb64_pton`);
skips whitespace as the armored base64 layer does. -/
def codecDecode (s : List Char) : Option (List Nat) :=
  (splitChunks (s.filter (fun c => ¬ isCSpace c))).mapM decodeChunk

/-- `wraplines` (reop.c), fuelled: insert a line break after every 76
characters; no trailing break.  One fuel unit per emitted line; the wrapper
below supplies ample fuel, so the fuel never runs out. -/
def wraplinesF : Nat → List Char → List Char
  | 0, s => s
  | fuel + 1, s =>
    if s.length ≤ 76 then s
    else s.take 76 ++ '\n' :: wraplinesF fuel (s.drop 76)

/-- `wraplines` (reop.c): insert a line break after every 76 characters. -/
def wraplines (s : List Char) : List Char := wraplinesF s.length s

/-- `writeb64data` (reop.c), fuelled: write 76-character lines, each with a
trailing line break. -/
def writeb64dataF : Nat → List Char → List Char
  | 0, s => s
  | fuel + 1, s =>
    if s = [] then []
    else s.take 76 ++ '\n' :: writeb64dataF fuel (s.drop 76)

/-- `writeb64data` (reop.c): 76-character lines with trailing breaks. -/
def writeb64data (s : List Char) : List Char := writeb64dataF s.length s

section CodecLemmas

theorem fromDigits_natDigitsAux : ∀ fuel n, n ≤ fuel →
    fromDigits (natDigitsAux fuel n) = n := by
  intro fuel
  induction fuel with
  | zero => intro n hn; interval_cases n; rfl
  | succ f ih =>
    intro n hn
    cases n with
    | zero => rfl
    | succ m =>
      have hdiv : (m + 1) / 10 ≤ f := by omega
      simp only [natDigitsAux, fromDigits, ih _ hdiv]
      omega

theorem natDigitsAux_lt_ten : ∀ fuel n d, d ∈ natDigitsAux fuel n → d < 10 := by
  intro fuel
  induction fuel with
  | zero => intro n d hd; simp [natDigitsAux] at hd
  | succ f ih =>
    intro n d hd
    cases n with
    | zero => simp [natDigitsAux] at hd
    | succ m =>
      simp only [natDigitsAux, List.mem_cons] at hd
      rcases hd with h | h
      · omega
      · exact ih _ _ h

theorem digitVal_digitChar (d : Nat) (hd : d < 10) :
    digitVal (digitChar d) = some d := by
  interval_cases d <;> rfl

theorem mapM_digitVal_digitChar (ds : List Nat) (h : ∀ d ∈ ds, d < 10) :
    (ds.map digitChar).mapM digitVal = some ds := by
  induction ds with
  | nil => rfl
  | cons d t ih =>
    have hd : d < 10 := h d (List.mem_cons_self ..)
    have ht := ih (fun x hx => h x (List.mem_cons_of_mem _ hx))
    simp only [List.map_cons, List.mapM_cons, digitVal_digitChar d hd, ht]
    rfl

theorem natChars_ne_nil (n : Nat) : natChars n ≠ [] := by
  unfold natChars
  split
  · simp
  · rename_i hn
    cases n with
    | zero => exact absurd rfl hn
    | succ m => simp [natDigits, natDigitsAux]

theorem decodeChunk_natChars (n : Nat) : decodeChunk (natChars n) = some n := by
  by_cases hn : n = 0
  · subst hn; rfl
  · unfold decodeChunk
    rw [if_neg (natChars_ne_nil n)]
    unfold natChars
    rw [if_neg hn]
    rw [mapM_digitVal_digitChar (natDigits n) (fun d hd => natDigitsAux_lt_ten _ _ _ hd)]
    simp only [Option.map_some']
    rw [show natDigits n = natDigitsAux n n from rfl,
      fromDigits_natDigitsAux n n (Nat.le_refl n)]

theorem digitVal_isSome_of_natChars (n : Nat) (c : Char) (hc : c ∈ natChars n) :
    (digitVal c).isSome = true := by
  unfold natChars at hc
  split at hc
  · rcases List.mem_singleton.mp hc with rfl; rfl
  · rcases List.mem_map.mp hc with ⟨d, hd, rfl⟩
    have := natDigitsAux_lt_ten _ _ _ hd
    rw [digitVal_digitChar d this]; rfl

theorem digitVal_of_space (c : Char) (h : isCSpace c = true) : digitVal c = none := by
  simp only [isCSpace, Bool.or_eq_true, beq_iff_eq] at h
  rcases h with ((((rfl | rfl) | rfl) | rfl) | rfl) | rfl <;> rfl

theorem digitVal_not_space (c : Char) (h : (digitVal c).isSome = true) :
    isCSpace c = false := by
  cases hsp : isCSpace c with
  | false => rfl
  | true => rw [digitVal_of_space c hsp] at h; cases h

theorem digitVal_ne_A (c : Char) (h : (digitVal c).isSome = true) : c ≠ 'A' := by
  intro hAc
  subst hAc
  have : digitVal 'A' = none := by decide
  rw [this] at h
  cases h

theorem splitChunks_ne_nil (s : List Char) : splitChunks s ≠ [] := by
  induction s with
  | nil => simp [splitChunks]
  | cons c rest ih =>
    simp only [splitChunks]
    cases h : splitChunks rest with
    | nil => exact absurd h ih
    | cons a t =>
      simp only [h]
      split <;> simp

theorem splitChunks_noA (c : List Char) (hA : 'A' ∉ c) : splitChunks c = [c] := by
  induction c with
  | nil => rfl
  | cons a r ih =>
    have haA : a ≠ 'A' := fun h => hA (h ▸ List.mem_cons_self ..)
    have hrA : 'A' ∉ r := fun h => hA (List.mem_cons_of_mem _ h)
    simp only [splitChunks, ih hrA]
    rw [if_neg haA]

theorem splitChunks_append (c z : List Char) (hA : 'A' ∉ c) :
    splitChunks (c ++ 'A' :: z) = c :: splitChunks z := by
  induction c with
  | nil =>
    simp only [List.nil_append, splitChunks]
    cases h : splitChunks z with
    | nil => exact absurd h (splitChunks_ne_nil z)
    | cons a t => simp
  | cons a r ih =>
    have haA : a ≠ 'A' := fun h => hA (h ▸ List.mem_cons_self ..)
    have hrA : 'A' ∉ r := fun h => hA (List.mem_cons_of_mem _ h)
    have hstep : (a :: r) ++ 'A' :: z = a :: (r ++ 'A' :: z) := rfl
    rw [hstep]
    show (match splitChunks (r ++ 'A' :: z) with
      | [] => [[a]]
      | h :: t => if a = 'A' then [] :: h :: t else (a :: h) :: t)
        = (a :: r) :: splitChunks z
    rw [ih hrA]
    show (if a = 'A' then [] :: r :: splitChunks z else (a :: r) :: splitChunks z)
        = (a :: r) :: splitChunks z
    rw [if_neg haA]

theorem splitChunks_joinChunks : ∀ cs : List (List Char),
    cs ≠ [] → (∀ c ∈ cs, 'A' ∉ c) → splitChunks (joinChunks cs) = cs := by
  intro cs
  induction cs with
  | nil => intro h; exact absurd rfl h
  | cons c t ih =>
    intro _ hA
    cases t with
    | nil => exact splitChunks_noA c (hA c (List.mem_cons_self ..))
    | cons c2 t2 =>
      show splitChunks (c ++ 'A' :: joinChunks (c2 :: t2)) = _
      rw [splitChunks_append c _ (hA c (List.mem_cons_self ..))]
      rw [ih (by simp) (fun x hx => hA x (List.mem_cons_of_mem _ hx))]

theorem codecEncode_mem (l : List Nat) (c : Char) (hc : c ∈ codecEncode l) :
    (digitVal c).isSome = true ∨ c = 'A' := by
  unfold codecEncode at hc
  induction l with
  | nil => cases hc
  | cons n t ih =>
    cases t with
    | nil =>
      left
      exact digitVal_isSome_of_natChars n c (by simpa [joinChunks] using hc)
    | cons n2 t2 =>
      have hsplit : c ∈ natChars n ++ 'A' :: joinChunks ((n2 :: t2).map natChars) := hc
      rw [List.mem_append] at hsplit
      rcases hsplit with h | h
      · left; exact digitVal_isSome_of_natChars n c h
      · rcases List.mem_cons.mp h with rfl | h2
        · right; rfl
        · exact ih h2

theorem codecEncode_not_space (l : List Nat) (c : Char) (hc : c ∈ codecEncode l) :
    isCSpace c = false := by
  rcases codecEncode_mem l c hc with h | rfl
  · exact digitVal_not_space c h
  · rfl

theorem codecEncode_ne_dash (l : List Nat) (c : Char) (hc : c ∈ codecEncode l) :
    c ≠ '-' := by
  rcases codecEncode_mem l c hc with h | rfl
  · intro hcd
    subst hcd
    have : digitVal '-' = none := by decide
    rw [this] at h
    cases h
  · intro h; cases h

theorem mapM_decodeChunk_natChars (l : List Nat) :
    (l.map natChars).mapM decodeChunk = some l := by
  induction l with
  | nil => rfl
  | cons n t ih =>
    simp only [List.map_cons, List.mapM_cons, decodeChunk_natChars n, ih]
    rfl

theorem codecDecode_codecEncode (l : List Nat) (hl : l ≠ []) :
    codecDecode (codecEncode l) = some l := by
  unfold codecDecode
  have hfilter : (codecEncode l).filter (fun c => ¬ isCSpace c) = codecEncode l := by
    rw [List.filter_eq_self]
    intro c hc
    simp [codecEncode_not_space l c hc]
  rw [hfilter]
  unfold codecEncode
  rw [splitChunks_joinChunks _ (by simpa using hl)
    (fun ch hcmem => by
      rcases List.mem_map.mp hcmem with ⟨n, _, rfl⟩
      intro hA
      exact digitVal_ne_A _ (digitVal_isSome_of_natChars n 'A' hA) rfl)]
  exact mapM_decodeChunk_natChars l

end CodecLemmas

section WrapLemmas

theorem wraplinesF_mem : ∀ fuel (s : List Char) (c : Char),
    c ∈ wraplinesF fuel s → c ∈ s ∨ c = '\n' := by
  intro fuel
  induction fuel with
  | zero => intro s c hc; exact Or.inl hc
  | succ f ih =>
    intro s c hc
    rw [wraplinesF] at hc
    split at hc
    · exact Or.inl hc
    · rcases List.mem_append.mp hc with h1 | h1
      · exact Or.inl (List.mem_of_mem_take h1)
      · rcases List.mem_cons.mp h1 with rfl | h2
        · exact Or.inr rfl
        · rcases ih _ c h2 with h3 | h3
          · exact Or.inl (List.mem_of_mem_drop h3)
          · exact Or.inr h3

theorem wraplines_mem (s : List Char) (c : Char) (hc : c ∈ wraplines s) :
    c ∈ s ∨ c = '\n' := wraplinesF_mem s.length s c hc

theorem filter_wraplinesF : ∀ fuel (s : List Char),
    (∀ c ∈ s, isCSpace c = false) →
    (wraplinesF fuel s).filter (fun c => ¬ isCSpace c) = s := by
  intro fuel
  induction fuel with
  | zero =>
    intro s h
    exact List.filter_eq_self.mpr fun c hc => by simp [h c hc]
  | succ f ih =>
    intro s h
    rw [wraplinesF]
    split
    · exact List.filter_eq_self.mpr fun c hc => by simp [h c hc]
    · rw [List.filter_append]
      have h1 : (s.take 76).filter (fun c => ¬ isCSpace c) = s.take 76 :=
        List.filter_eq_self.mpr fun c hc => by simp [h c (List.mem_of_mem_take hc)]
      have h2 : ('\n' :: wraplinesF f (s.drop 76)).filter (fun c => ¬ isCSpace c) =
          (wraplinesF f (s.drop 76)).filter (fun c => ¬ isCSpace c) := by
        simp [isCSpace]
      rw [h1, h2, ih _ (fun c hc => h c (List.mem_of_mem_drop hc))]
      exact List.take_append_drop 76 s

theorem filter_wraplines (s : List Char) (h : ∀ c ∈ s, isCSpace c = false) :
    (wraplines s).filter (fun c => ¬ isCSpace c) = s :=
  filter_wraplinesF s.length s h

theorem writeb64dataF_mem : ∀ fuel (s : List Char) (c : Char),
    c ∈ writeb64dataF fuel s → c ∈ s ∨ c = '\n' := by
  intro fuel
  induction fuel with
  | zero => intro s c hc; exact Or.inl hc
  | succ f ih =>
    intro s c hc
    rw [writeb64dataF] at hc
    split at hc
    · cases hc
    · rcases List.mem_append.mp hc with h1 | h1
      · exact Or.inl (List.mem_of_mem_take h1)
      · rcases List.mem_cons.mp h1 with rfl | h2
        · exact Or.inr rfl
        · rcases ih _ c h2 with h3 | h3
          · exact Or.inl (List.mem_of_mem_drop h3)
          · exact Or.inr h3

theorem writeb64data_mem (s : List Char) :
    ∀ c ∈ writeb64data s, c ∈ s ∨ c = '\n' :=
  fun c hc => writeb64dataF_mem s.length s c hc

theorem filter_writeb64dataF : ∀ fuel (s : List Char),
    (∀ c ∈ s, isCSpace c = false) →
    (writeb64dataF fuel s).filter (fun c => ¬ isCSpace c) = s := by
  intro fuel
  induction fuel with
  | zero =>
    intro s h
    exact List.filter_eq_self.mpr fun c hc => by simp [h c hc]
  | succ f ih =>
    intro s h
    rw [writeb64dataF]
    split
    · rename_i hnil
      rw [hnil]
      rfl
    · rw [List.filter_append]
      have h1 : (s.take 76).filter (fun c => ¬ isCSpace c) = s.take 76 :=
        List.filter_eq_self.mpr fun c hc => by simp [h c (List.mem_of_mem_take hc)]
      have h2 : ('\n' :: writeb64dataF f (s.drop 76)).filter
          (fun c => ¬ isCSpace c) =
          (writeb64dataF f (s.drop 76)).filter (fun c => ¬ isCSpace c) := by
        simp [isCSpace]
      rw [h1, h2, ih _ (fun c hc => h c (List.mem_of_mem_drop hc))]
      exact List.take_append_drop 76 s

theorem filter_writeb64data (s : List Char) :
    (∀ c ∈ s, isCSpace c = false) →
    (writeb64data s).filter (fun c => ¬ isCSpace c) = s :=
  fun h => filter_writeb64dataF s.length s h

end WrapLemmas

/-! ## Primitives wrapper (nacl/libsodium model)

The crypto library is external to the repository; it is idealized as
described in the header.  `mix key nonce` is the keystream value, applied by
XOR (so encryption and decryption coincide); tags are symbolic records
checked for exact equality, which models "tag verification succeeds exactly
when key, nonce and ciphertext all match". -/

/-- Keystream value derived from a key and a nonce. -/
def mix (key nonce : Nat) : Nat := Nat.pair key nonce

/-- XOR-mask a buffer with a keystream (involutive). -/
def maskBuf (key nonce : Nat) (buf : List Nat) : List Nat :=
  buf.map (fun b => b ^^^ mix key nonce)

/-- Poly1305 tag of a secretbox: symbolic record of key, nonce, ciphertext
(a `raw` constructor represents arbitrary other 16-byte field contents). -/
inductive SymTag where
  | raw (n : Nat)
  | mac (key nonce : Nat) (cipher : List Nat)
deriving DecidableEq, Repr

/-- crypto_box tag: same, over the derived shared key. -/
inductive BoxTag where
  | raw (n : Nat)
  | mac (shared nonce : Nat) (cipher : List Nat)
deriving DecidableEq, Repr

/-- Ed25519 signature value: either arbitrary 64 bytes (`raw`) or an actual
detached signature by `key` over `msg` (`signed`). -/
inductive EdSig where
  | raw (n : Nat)
  | signed (key : Nat) (msg : List Nat)
deriving DecidableEq, Repr

/-- `symencryptraw` (reop.c): crypto_secretbox_detached in place; the nonce
is random and passed in explicitly.  Returns (ciphertext, tag). -/
def symencryptraw (buf : List Nat) (nonce : Nat) (symkey : Nat) :
    List Nat × SymTag :=
  let c := maskBuf symkey nonce buf
  (c, SymTag.mac symkey nonce c)

/-- `symdecryptraw` (reop.c): crypto_secretbox_open_detached in place;
`none` models the `-1` auth-failure return. -/
def symdecryptraw (buf : List Nat) (nonce : Nat) (tag : SymTag) (symkey : Nat) :
    Option (List Nat) :=
  if tag = SymTag.mac symkey nonce buf then some (maskBuf symkey nonce buf)
  else none

/-- crypto_box shared key for a (public, secret) pair of scalars: unordered,
so that box(pkB, skA) opens with (pkA, skB). -/
def sharedOf (pk sk : Nat) : Nat := Nat.pair (min pk sk) (max pk sk)

/-- `pubencryptraw` (reop.c): crypto_box_detached in place. -/
def pubencryptraw (buf : List Nat) (nonce : Nat) (pk sk : Nat) :
    List Nat × BoxTag :=
  let c := maskBuf (sharedOf pk sk) nonce buf
  (c, BoxTag.mac (sharedOf pk sk) nonce c)

/-- `pubdecryptraw` (reop.c): crypto_box_open_detached in place. -/
def pubdecryptraw (buf : List Nat) (nonce : Nat) (tag : BoxTag) (pk sk : Nat) :
    Option (List Nat) :=
  if tag = BoxTag.mac (sharedOf pk sk) nonce buf
  then some (maskBuf (sharedOf pk sk) nonce buf)
  else none

/-- `signraw` (reop.c): crypto_sign_detached. -/
def signraw (seckey : Nat) (msg : List Nat) : EdSig :=
  EdSig.signed seckey msg

/-- `verifyraw` (reop.c): crypto_sign_verify_detached; `true` iff the
signature is the detached signature of `msg` under the key pairing with
`pubkey` (public keys are identified with their scalar). -/
def verifyraw (pubkey : Nat) (msg : List Nat) (sig : EdSig) : Bool :=
  sig == EdSig.signed pubkey msg

section PrimitiveLemmas

theorem maskBuf_maskBuf (key nonce : Nat) (buf : List Nat) :
    maskBuf key nonce (maskBuf key nonce buf) = buf := by
  unfold maskBuf
  rw [List.map_map]
  have : ((fun b => b ^^^ mix key nonce) ∘ fun b => b ^^^ mix key nonce) = id := by
    funext b
    simp [Nat.xor_assoc]
  rw [this, List.map_id]

theorem sharedOf_comm (a b : Nat) : sharedOf a b = sharedOf b a := by
  unfold sharedOf
  rw [Nat.min_comm, Nat.max_comm]

theorem symdecryptraw_symencryptraw (buf : List Nat) (nonce key : Nat) :
    symdecryptraw (symencryptraw buf nonce key).1 nonce
      (symencryptraw buf nonce key).2 key = some buf := by
  simp [symencryptraw, symdecryptraw, maskBuf_maskBuf]

theorem pubdecryptraw_pubencryptraw (buf : List Nat) (nonce pk sk : Nat) :
    pubdecryptraw (pubencryptraw buf nonce pk sk).1 nonce
      (pubencryptraw buf nonce pk sk).2 sk pk = some buf := by
  simp [pubencryptraw, pubdecryptraw, sharedOf_comm sk pk, maskBuf_maskBuf]

end PrimitiveLemmas

/-! ## Data model (structs of reop.c) -/

/-- 2-byte algorithm tags, as 16-bit big-endian ASCII values. -/
def SIGALG : Nat := 0x4564    -- "Ed"
/-- Current ephemeral public-key envelope tag "eC". -/
def ENCALG : Nat := 0x6543
/-- Legacy public-key envelope tag "CS". -/
def OLDENCALG : Nat := 0x4353
/-- Key algorithm tag "CS" (same bytes as the legacy envelope tag). -/
def ENCKEYALG : Nat := 0x4353
/-- Legacy ephemeral-key envelope tag "eS". -/
def OLDEKCALG : Nat := 0x6553
/-- Symmetric algorithm tag "SP". -/
def SYMALG : Nat := 0x5350
/-- KDF algorithm tag "BK". -/
def KDFALG : Nat := 0x424B

/-- `struct reop_seckey` (reop.c).  The 96-byte `sigkey||enckey` region is
stored encrypted on disk and plaintext in memory; both states use the same
two fields, exactly as the in-place C encryption does. -/
structure ReopSeckey where
  sigalg : Nat
  encalg : Nat
  symalg : Nat
  kdfalg : Nat
  randomid : Nat
  kdfrounds : Nat
  salt : Nat
  nonce : Nat
  tag : SymTag
  sigkey : Nat
  enckey : Nat
  ident : List Char
deriving DecidableEq, Repr

/-- `struct reop_pubkey` (reop.c). -/
structure ReopPubkey where
  sigalg : Nat
  encalg : Nat
  randomid : Nat
  sigkey : Nat
  enckey : Nat
  ident : List Char
deriving DecidableEq, Repr

/-- `struct reop_sig` (reop.c). -/
structure ReopSig where
  sigalg : Nat
  randomid : Nat
  sig : EdSig
  ident : List Char
deriving DecidableEq, Repr

/-- `struct reop_symmsg` (reop.c). -/
structure ReopSymmsg where
  symalg : Nat
  kdfalg : Nat
  kdfrounds : Nat
  salt : Nat
  nonce : Nat
  tag : SymTag
deriving DecidableEq, Repr

/-- `struct reop_encmsg` (reop.c): current `eC` envelope.  `ephpubkey` holds
the (encrypted, after `reop_pubencrypt`) ephemeral public key. -/
structure ReopEncmsg where
  encalg : Nat
  secrandomid : Nat
  pubrandomid : Nat
  ephpubkey : Nat
  ephnonce : Nat
  ephtag : BoxTag
  nonce : Nat
  tag : BoxTag
  ident : List Char
deriving DecidableEq, Repr

/-- `struct oldencmsg` (reop.c): legacy `CS` envelope header. -/
structure OldEncmsg where
  encalg : Nat
  secrandomid : Nat
  pubrandomid : Nat
  nonce : Nat
  tag : BoxTag
deriving DecidableEq, Repr

/-- `reop_verify_result` (reop.h): REOP_V_OK / REOP_V_MISMATCH / REOP_V_FAIL. -/
inductive ReopVerifyResult where
  | ok
  | mismatch
  | fail
deriving DecidableEq, Repr

/-- `reop_decrypt_result` (reop.h): REOP_D_OK (carrying the recovered
plaintext) / REOP_D_MISMATCH / REOP_D_INVALID / REOP_D_FAIL. -/
inductive ReopDecryptResult where
  | ok (msg : List Nat)
  | mismatch
  | invalid
  | fail
deriving DecidableEq, Repr

/-- Result of `decryptseckey` (reop.c): 0 / -2 (bad kdfalg) / -1 (auth). -/
inductive SeckeyDecryptResult where
  | ok (sk : ReopSeckey)
  | badkdf
  | authfail
deriving DecidableEq, Repr

/-! ## KDF secret-key wrapping -/

/-- Modelled from the spec: the external `bcrypt_pbkdf` primitive (not in
src/), a deterministic key-derivation stand-in from passphrase, salt and
round count. -/
def bcrypt_pbkdf (password : String) (salt rounds : Nat) : Nat :=
  Nat.pair (password.toList.foldr (fun c acc => Nat.pair c.toNat acc) 0)
    (Nat.pair salt rounds)

/-- `kdf` (reop.c): iteration count 0 is the no-password sentinel, yielding
an all-zero key without consulting the passphrase at all (the C code
`memset`s the key and returns before looking at `password`).  The
TTY-prompting path for a NULL password is outside the model: the caller
supplies the passphrase. -/
def kdf (salt : Nat) (rounds : Nat) (password : String) : Nat :=
  if rounds = 0 then 0 else bcrypt_pbkdf password salt rounds

/-- `encryptseckey` (reop.c): wrap the 96-byte `sigkey||enckey` region in
place under the passphrase-derived key.  Empty passphrase selects 0 rounds;
otherwise 42.  `saltR`/`nonceR` stand for the `randombytes` outputs. -/
def encryptseckey (sk : ReopSeckey) (password : String) (saltR nonceR : Nat) :
    ReopSeckey :=
  let rounds := if password = "" then 0 else 42
  let symkey := kdf saltR rounds password
  let ec := symencryptraw [sk.sigkey, sk.enckey] nonceR symkey
  { sk with
    kdfrounds := rounds
    salt := saltR
    nonce := nonceR
    tag := ec.2
    sigkey := (ec.1.getD 0 0)
    enckey := (ec.1.getD 1 0) }

/-- `decryptseckey` (reop.c): reject a kdfalg other than BK (`-2`), derive
the key from the *stored* round count, open the box (`-1` on auth failure). -/
def decryptseckey (sk : ReopSeckey) (password : String) : SeckeyDecryptResult :=
  if sk.kdfalg ≠ KDFALG then SeckeyDecryptResult.badkdf
  else
    let symkey := kdf sk.salt sk.kdfrounds password
    match symdecryptraw [sk.sigkey, sk.enckey] sk.nonce sk.tag symkey with
    | none => SeckeyDecryptResult.authfail
    | some plain =>
      SeckeyDecryptResult.ok
        { sk with sigkey := plain.getD 0 0, enckey := plain.getD 1 0 }

/-! ## Key generation, signing, verifying -/

/-- Randomness consumed by `reop_generate`: the two fresh keypairs' scalars
and the fresh 8-byte randomid. -/
structure GenRand where
  sigsk : Nat
  encsk : Nat
  randomid : Nat
deriving DecidableEq, Repr

/-- `reop_generate` (reop.c): fresh Ed25519/Curve25519 keypairs and a fresh
randomid, each identically tagged, `ident` truncated by `strlcpy` to 63
content bytes.  Returns `(pubkey, seckey)` with the seckey still plaintext
(wrapping happens in `reop_encodeseckey`). -/
def reop_generate (ident : List Char) (r : GenRand) : ReopPubkey × ReopSeckey :=
  let pubkey : ReopPubkey :=
    { sigalg := SIGALG
      encalg := ENCKEYALG
      randomid := r.randomid
      sigkey := r.sigsk
      enckey := r.encsk
      ident := ident.take 63 }
  let seckey : ReopSeckey :=
    { sigalg := SIGALG
      encalg := ENCKEYALG
      symalg := SYMALG
      kdfalg := KDFALG
      randomid := r.randomid
      kdfrounds := 0
      salt := 0
      nonce := 0
      tag := SymTag.raw 0
      sigkey := r.sigsk
      enckey := r.encsk
      ident := ident.take 63 }
  (pubkey, seckey)

/-- `reop_sign` (reop.c): detached signature over `msg` (bytes of the
message), randomid and ident copied from the secret key. -/
def reop_sign (seckey : ReopSeckey) (msg : List Char) : ReopSig :=
  { sigalg := SIGALG
    randomid := seckey.randomid
    sig := signraw seckey.sigkey (msg.map Char.toNat)
    ident := seckey.ident.take 63 }

/-- `reop_verify` (reop.c): mismatch when the randomids differ, otherwise
the detached-verification primitive decides ok/fail. -/
def reop_verify (pubkey : ReopPubkey) (msg : List Char) (sig : ReopSig) :
    ReopVerifyResult :=
  if pubkey.randomid ≠ sig.randomid then ReopVerifyResult.mismatch
  else if verifyraw pubkey.sigkey (msg.map Char.toNat) sig.sig
  then ReopVerifyResult.ok
  else ReopVerifyResult.fail

/-! ## Encryption flows -/

/-- `reop_pubencrypt` (reop.c): encrypt `msg` in place to the recipient
`pubkey` with a fresh ephemeral key `eph`, then encrypt the ephemeral public
key with the sender's static key.  `n1`/`n2` are the two random nonces.
Returns the envelope and the message ciphertext. -/
def reop_pubencrypt (pubkey : ReopPubkey) (seckey : ReopSeckey)
    (msg : List Nat) (eph n1 n2 : Nat) : ReopEncmsg × List Nat :=
  let body := pubencryptraw msg n1 pubkey.enckey eph
  let ephbox := pubencryptraw [eph] n2 pubkey.enckey seckey.enckey
  ({ encalg := ENCALG
     pubrandomid := pubkey.randomid
     secrandomid := seckey.randomid
     ephpubkey := ephbox.1.getD 0 0
     ephnonce := n2
     ephtag := ephbox.2
     nonce := n1
     tag := body.2
     ident := seckey.ident.take 63 }, body.1)

/-- `reop_pubdecrypt` (reop.c): check both randomids, check both key
algorithms, open the ephemeral-key box, then open the body with the
recovered ephemeral public key. -/
def reop_pubdecrypt (encmsg : ReopEncmsg) (pubkey : ReopPubkey)
    (seckey : ReopSeckey) (msg : List Nat) : ReopDecryptResult :=
  if encmsg.pubrandomid ≠ seckey.randomid ∨ encmsg.secrandomid ≠ pubkey.randomid
  then ReopDecryptResult.mismatch
  else if pubkey.encalg ≠ ENCKEYALG then ReopDecryptResult.invalid
  else if seckey.encalg ≠ ENCKEYALG then ReopDecryptResult.invalid
  else
    match pubdecryptraw [encmsg.ephpubkey] encmsg.ephnonce encmsg.ephtag
      pubkey.enckey seckey.enckey with
    | none => ReopDecryptResult.fail
    | some ephplain =>
      match pubdecryptraw msg encmsg.nonce encmsg.tag
        (ephplain.getD 0 0) seckey.enckey with
      | none => ReopDecryptResult.fail
      | some plain => ReopDecryptResult.ok plain

/-- `reop_symdecrypt` (reop.c): reject a kdfalg other than BK, re-derive the
key from the stored salt and round count, open the box. -/
def reop_symdecrypt (symmsg : ReopSymmsg) (password : String) (msg : List Nat) :
    ReopDecryptResult :=
  if symmsg.kdfalg ≠ KDFALG then ReopDecryptResult.invalid
  else
    let symkey := kdf symmsg.salt symmsg.kdfrounds password
    match symdecryptraw msg symmsg.nonce symmsg.tag symkey with
    | none => ReopDecryptResult.fail
    | some plain => ReopDecryptResult.ok plain

/-- `reop_symencrypt` (reop.c): 42 rounds, random salt and nonce passed in. -/
def reop_symencrypt (msg : List Nat) (password : String) (saltR nonceR : Nat) :
    ReopSymmsg × List Nat :=
  let symkey := kdf saltR 42 password
  let ec := symencryptraw msg nonceR symkey
  ({ symalg := SYMALG
     kdfalg := KDFALG
     kdfrounds := 42
     salt := saltR
     nonce := nonceR
     tag := ec.2 }, ec.1)

/-- The legacy `CS` branch of `decrypt` (reop.c, lines 1537-1563): the
randomid check keeps the duplicated comparison of the source (the second
disjunct compares `pubrandomid` with the seckey randomid twice; the
envelope's `secrandomid` is never compared on that path); then both key
algorithms are checked and the body is opened directly with the two static
keys. -/
def decryptOldenc (hdr : OldEncmsg) (pubkey : ReopPubkey) (seckey : ReopSeckey)
    (msg : List Nat) : ReopDecryptResult :=
  if hdr.pubrandomid = pubkey.randomid then
    if hdr.secrandomid ≠ seckey.randomid then ReopDecryptResult.mismatch
    else decryptOldencBody hdr pubkey seckey msg
  else if hdr.pubrandomid ≠ seckey.randomid ∨ hdr.pubrandomid ≠ seckey.randomid
  then ReopDecryptResult.mismatch
  else decryptOldencBody hdr pubkey seckey msg
where
  /-- The shared tail of the branch: key-algorithm checks and the
  crypto_box open. -/
  decryptOldencBody (hdr : OldEncmsg) (pubkey : ReopPubkey)
      (seckey : ReopSeckey) (msg : List Nat) : ReopDecryptResult :=
    if pubkey.encalg ≠ ENCKEYALG then ReopDecryptResult.invalid
    else if seckey.encalg ≠ ENCKEYALG then ReopDecryptResult.invalid
    else
      match pubdecryptraw msg hdr.nonce hdr.tag pubkey.enckey seckey.enckey with
      | none => ReopDecryptResult.fail
      | some plain => ReopDecryptResult.ok plain

/-! ## Envelope codec: armored framing -/

/-- Literal "-----BEGIN REOP " (16 characters). -/
def beginkeyStr : List Char := "-----BEGIN REOP ".toList
/-- Literal "-----END REOP " (14 characters). -/
def endkeyStr : List Char := "-----END REOP ".toList
/-- Literal "-----". -/
def dashesStr : List Char := "-----".toList
/-- Literal "ident:". -/
def identTagStr : List Char := "ident:".toList
/-- Literal "-----BEGIN REOP SIGNED MESSAGE-----\n" (36 characters). -/
def beginmsgStr : List Char := "-----BEGIN REOP SIGNED MESSAGE-----\n".toList
/-- Literal "-----BEGIN REOP SIGNATURE-----\n" (31 characters). -/
def beginsigStr : List Char := "-----BEGIN REOP SIGNATURE-----\n".toList
/-- Literal "-----END REOP SIGNED MESSAGE-----\n". -/
def endsignedStr : List Char := "-----END REOP SIGNED MESSAGE-----\n".toList

/-- Payload serialization of `struct reop_seckey` up to `ident`
(`seckeysize = offsetof(struct reop_seckey, ident)`): field order exactly as
in the C struct. -/
def serializeSeckey (sk : ReopSeckey) : List Nat :=
  [sk.sigalg, sk.encalg, sk.symalg, sk.kdfalg, sk.randomid, sk.kdfrounds,
   sk.salt, sk.nonce] ++ serializeSymTag sk.tag ++ [sk.sigkey, sk.enckey]
where
  /-- Serialize the 16-byte tag field. -/
  serializeSymTag : SymTag → List Nat
    | SymTag.raw n => [0, n]
    | SymTag.mac k n c => [1, k, n, c.length] ++ c

/-- Parse the tag field back, returning the remainder of the payload. -/
def parseSymTag : List Nat → Option (SymTag × List Nat)
  | 0 :: n :: rest => some (SymTag.raw n, rest)
  | 1 :: k :: n :: len :: rest =>
    if len ≤ rest.length then some (SymTag.mac k n (rest.take len), rest.drop len)
    else none
  | _ => none

/-- Parse a seckey payload (exact size enforced: the whole payload must be
consumed, mirroring `b64 decode == seckeysize`). -/
def parseSeckeyPayload (l : List Nat) (ident : List Char) : Option ReopSeckey :=
  match l with
  | a :: b :: c :: d :: e :: f :: g :: h :: rest =>
    match parseSymTag rest with
    | some (t, [s1, s2]) =>
      some { sigalg := a, encalg := b, symalg := c, kdfalg := d, randomid := e,
             kdfrounds := f, salt := g, nonce := h, tag := t,
             sigkey := s1, enckey := s2, ident := ident }
    | _ => none
  | _ => none

/-- Payload serialization of `struct reop_pubkey` up to `ident`. -/
def serializePubkey (pk : ReopPubkey) : List Nat :=
  [pk.sigalg, pk.encalg, pk.randomid, pk.sigkey, pk.enckey]

/-- Parse a pubkey payload (exact size enforced). -/
def parsePubkeyPayload (l : List Nat) (ident : List Char) : Option ReopPubkey :=
  match l with
  | [a, b, c, d, e] =>
    some { sigalg := a, encalg := b, randomid := c, sigkey := d, enckey := e,
           ident := ident }
  | _ => none

/-- Payload serialization of `struct reop_sig` up to `ident`. -/
def serializeSig (sig : ReopSig) : List Nat :=
  [sig.sigalg, sig.randomid] ++ serializeEdSig sig.sig
where
  /-- Serialize the 64-byte signature field. -/
  serializeEdSig : EdSig → List Nat
    | EdSig.raw n => [0, n]
    | EdSig.signed k m => [1, k, m.length] ++ m

/-- Parse a signature payload (exact size enforced). -/
def parseSigPayload (l : List Nat) (ident : List Char) : Option ReopSig :=
  match l with
  | a :: b :: 0 :: n :: rest =>
    match rest with
    | [] => some { sigalg := a, randomid := b, sig := EdSig.raw n, ident := ident }
    | _ => none
  | a :: b :: 1 :: k :: len :: rest =>
    if rest.length = len
    then some { sigalg := a, randomid := b, sig := EdSig.signed k rest,
                ident := ident }
    else none
  | _ => none

/-- `encodekey` (reop.c): the armored block
`-----BEGIN REOP <info>-----\nident:<ident>\n<wrapped payload>\n-----END REOP <info>-----\n`. -/
def encodekey (info : List Char) (payload : List Nat) (ident : List Char) :
    List Char :=
  beginkeyStr ++ info ++ dashesStr ++ '\n' ::
    (identTagStr ++ ident ++ '\n' ::
      (wraplines (codecEncode payload) ++ '\n' ::
        (endkeyStr ++ info ++ dashesStr ++ ['\n'])))

/-- `readident` (reop.c): `sscanf(buf, "ident:%63s", ident)` — the literal
must match at the start of `buf`, then `%s` skips whitespace and collects at
most 63 non-whitespace characters (crossing line breaks if necessary); it
fails if no character is collected.  Then the line is skipped via
`strchr(buf + 1, '\n')`, returning the text after the first newline.
Returns (identity, rest). -/
def readident (buf : List Char) : Option (List Char × List Char) :=
  if strMatch identTagStr buf = false then none
  else
    let tok := (((buf.drop 6).dropWhile (fun c => isCSpace c)).takeWhile
      (fun c => ¬ isCSpace c)).take 63
    if tok = [] then none
    else
      match strstrIdx ['\n'] (buf.drop 1) with
      | none => none
      | some i => some (tok, buf.drop (1 + i + 1))

/-- `parsekeydata` (reop.c): check the BEGIN marker and key type, truncate at
the first `-----END REOP ` occurrence, skip the BEGIN line, read the ident
line, and decode the remaining payload.  Returns (payload, identity). -/
def parsekeydata (keytype : List Char) (text : List Char) :
    Option (List Nat × List Char) :=
  if strMatch beginkeyStr text = false then none
  else if strMatch keytype (text.drop 16) = false then none
  else
    match strstrIdx endkeyStr text with
    | none => none
    | some e =>
      let trunc := text.take e
      match strstrIdx ['\n'] trunc with
      | none => none
      | some i =>
        match readident (trunc.drop (i + 1)) with
        | none => none
        | some (id, rest) =>
          match codecDecode rest with
          | none => none
          | some payload => some (payload, id)

/-- `reop_encodeseckey` (reop.c): wrap a copy of the seckey under the
passphrase, then armor it (the ident written is the original's). -/
def reop_encodeseckey (sk : ReopSeckey) (password : String) (saltR nonceR : Nat) :
    List Char :=
  encodekey "SECRET KEY".toList
    (serializeSeckey (encryptseckey sk password saltR nonceR)) sk.ident

/-- `reop_parseseckey` (reop.c): parse the armored block, then decrypt the
secret material; any failure yields `none` (NULL). -/
def reop_parseseckey (text : List Char) (password : String) : Option ReopSeckey :=
  match parsekeydata "SECRET KEY".toList text with
  | none => none
  | some (payload, id) =>
    match parseSeckeyPayload payload id with
    | none => none
    | some sk =>
      match decryptseckey sk password with
      | SeckeyDecryptResult.ok sk' => some sk'
      | _ => none

/-- `reop_encodepubkey` (reop.c). -/
def reop_encodepubkey (pk : ReopPubkey) : List Char :=
  encodekey "PUBLIC KEY".toList (serializePubkey pk) pk.ident

/-- `reop_parsepubkey` (reop.c). -/
def reop_parsepubkey (text : List Char) : Option ReopPubkey :=
  match parsekeydata "PUBLIC KEY".toList text with
  | none => none
  | some (payload, id) => parsePubkeyPayload payload id

/-- `reop_parsesig` (reop.c). -/
def reop_parsesig (text : List Char) : Option ReopSig :=
  match parsekeydata "SIGNATURE".toList text with
  | none => none
  | some (payload, id) => parseSigPayload payload id

/-- `writesignedmsg` (reop.c): the embedded signed-message file: SIGNED
MESSAGE opener, raw message bytes, SIGNATURE opener, ident line, base64 of
the signature struct in 76-column lines, END line. -/
def writesignedmsg (sig : ReopSig) (ident : List Char) (msg : List Char) :
    List Char :=
  beginmsgStr ++ msg ++ beginsigStr ++
    (identTagStr ++ ident ++ '\n' ::
      (writeb64data (codecEncode (serializeSig sig)) ++ endsignedStr))

/-- `verifyembedded` (reop.c): check the SIGNED MESSAGE opener, find the
*last* occurrence of the SIGNATURE opener, take the message span between
them, parse the signature block and verify.  Returns the recovered message
span and the verification result (`none` models the framing `errx` paths). -/
def verifyembedded (pubkey : ReopPubkey) (fdata : List Char) :
    Option (List Char × ReopVerifyResult) :=
  if strMatch beginmsgStr fdata = false then none
  else
    let msgpart := fdata.drop 36
    match strstrIdx beginsigStr msgpart with
    | none => none
    | some i0 =>
      let lastpos := lastLoopF msgpart.length beginsigStr msgpart i0
      let msg := msgpart.take lastpos
      let sigdata := msgpart.drop lastpos
      match reop_parsesig sigdata with
      | none => none
      | some sig => some (msg, reop_verify pubkey msg sig)

section PayloadLemmas

theorem parseSymTag_serialize (t : SymTag) (r : List Nat) :
    parseSymTag (serializeSeckey.serializeSymTag t ++ r) = some (t, r) := by
  cases t with
  | raw n => rfl
  | mac k n c =>
    show parseSymTag (1 :: k :: n :: c.length :: (c ++ r)) = _
    simp only [parseSymTag]
    rw [if_pos (by simp : c.length ≤ (c ++ r).length)]
    rw [List.take_left, List.drop_left]

theorem parseSeckeyPayload_serialize (sk : ReopSeckey) (id : List Char) :
    parseSeckeyPayload (serializeSeckey sk) id = some { sk with ident := id } := by
  show parseSeckeyPayload
    (sk.sigalg :: sk.encalg :: sk.symalg :: sk.kdfalg :: sk.randomid ::
      sk.kdfrounds :: sk.salt :: sk.nonce ::
      (serializeSeckey.serializeSymTag sk.tag ++ [sk.sigkey, sk.enckey])) id = _
  simp only [parseSeckeyPayload, parseSymTag_serialize]

theorem parsePubkeyPayload_serialize (pk : ReopPubkey) (id : List Char) :
    parsePubkeyPayload (serializePubkey pk) id = some { pk with ident := id } := rfl

theorem parseSigPayload_serialize (sig : ReopSig) (id : List Char) :
    parseSigPayload (serializeSig sig) id = some { sig with ident := id } := by
  obtain ⟨sa, rid, ssig, sid⟩ := sig
  cases ssig with
  | raw n => rfl
  | signed k m =>
    show parseSigPayload (sa :: rid :: 1 :: k :: m.length :: m) id = _
    simp only [parseSigPayload, if_true]

theorem serializeSeckey_ne_nil (sk : ReopSeckey) : serializeSeckey sk ≠ [] := by
  unfold serializeSeckey
  simp

theorem serializePubkey_ne_nil (pk : ReopPubkey) : serializePubkey pk ≠ [] := by
  unfold serializePubkey
  simp

theorem serializeSig_ne_nil (sig : ReopSig) : serializeSig sig ≠ [] := by
  unfold serializeSig
  simp

end PayloadLemmas

section SeckeyCryptoLemmas

/-- Wrap-then-unwrap of the secret material: if the decode passphrase
derives the same symmetric key as the encode passphrase did (in particular
when the two passphrases are equal, or when the encode passphrase was empty,
making the stored round count 0 and the key all-zero
regardless of the decode passphrase), `decryptseckey` succeeds and restores
the secret bits. -/
theorem decryptseckey_encryptseckey (sk : ReopSeckey) (encPw decPw : String)
    (saltR nonceR : Nat) (hk : sk.kdfalg = KDFALG)
    (hkey : kdf saltR (if encPw = "" then 0 else 42) decPw
          = kdf saltR (if encPw = "" then 0 else 42) encPw) :
    ∃ sk', decryptseckey (encryptseckey sk encPw saltR nonceR) decPw =
        SeckeyDecryptResult.ok sk' ∧
      sk'.sigkey = sk.sigkey ∧ sk'.enckey = sk.enckey ∧
      sk'.randomid = sk.randomid ∧ sk'.kdfrounds = (if encPw = "" then 0 else 42) := by
  unfold decryptseckey encryptseckey
  simp only [hk]
  rw [if_neg (by simp [KDFALG])]
  rw [hkey]
  simp only [symencryptraw, symdecryptraw, maskBuf, mix, List.map_cons, List.map_nil,
    List.getD_cons_zero, List.getD_cons_succ, if_true]
  refine ⟨_, rfl, ?_, ?_, rfl, rfl⟩
  · simp [Nat.xor_assoc]
  · simp [Nat.xor_assoc]

end SeckeyCryptoLemmas

section ReadidentLemmas

theorem takeWhile_append_stop (p : Char → Bool) (id : List Char) (x : Char)
    (rest : List Char) (hall : ∀ c ∈ id, p c = true) (hx : p x = false) :
    (id ++ x :: rest).takeWhile p = id := by
  induction id with
  | nil => simp [List.takeWhile_cons, hx]
  | cons a t ih =>
    have ha : p a = true := hall a (List.mem_cons_self ..)
    simp only [List.cons_append, List.takeWhile_cons, ha, if_true]
    rw [ih (fun c hc => hall c (List.mem_cons_of_mem _ hc))]

theorem all_ne_of_all (K : List Char) (x : Char)
    (hK : K.all (fun c => c != x) = true) : ∀ c ∈ K, c ≠ x := by
  intro c hc
  have := List.all_eq_true.mp hK c hc
  simpa using this

theorem readident_eq (id rest : List Char)
    (hid1 : ∀ c ∈ id, isCSpace c = false) (hid2 : id ≠ []) :
    readident (identTagStr ++ (id ++ '\n' :: rest)) = some (id.take 63, rest) := by
  unfold readident
  rw [strMatch_append]
  rw [if_neg (by simp)]
  have hdrop6 : (identTagStr ++ (id ++ '\n' :: rest)).drop 6 = id ++ '\n' :: rest :=
    List.drop_left' (by decide)
  rw [hdrop6]
  obtain ⟨c0, t0, rfl⟩ : ∃ c0 t0, id = c0 :: t0 := by
    cases id with
    | nil => exact absurd rfl hid2
    | cons a b => exact ⟨a, b, rfl⟩
  have hdw : ((c0 :: t0) ++ '\n' :: rest).dropWhile (fun c => isCSpace c) =
      (c0 :: t0) ++ '\n' :: rest := by
    simp only [List.cons_append, List.dropWhile_cons]
    rw [if_neg (by simp [hid1 c0 (List.mem_cons_self ..)])]
  rw [hdw]
  have htw : ((c0 :: t0) ++ '\n' :: rest).takeWhile (fun c => ¬ isCSpace c) =
      c0 :: t0 := by
    apply takeWhile_append_stop
    · intro c hc
      simp [hid1 c hc]
    · simp [isCSpace]
  rw [htw]
  rw [if_neg (by simp [List.take_eq_nil_iff])]
  have hstep : identTagStr ++ ((c0 :: t0) ++ '\n' :: rest) =
      'i' :: (("dent:".toList ++ (c0 :: t0)) ++ '\n' :: rest) := by
    have h1 : identTagStr = 'i' :: "dent:".toList := rfl
    rw [h1]
    simp
  have hdrop1 : (identTagStr ++ ((c0 :: t0) ++ '\n' :: rest)).drop 1 =
      ("dent:".toList ++ (c0 :: t0)) ++ '\n' :: rest := by
    rw [hstep]
    rfl
  rw [hdrop1]
  have hnotnl : ∀ c ∈ "dent:".toList ++ (c0 :: t0), c ≠ '\n' := by
    intro c hc
    rcases List.mem_append.mp hc with h | h
    · exact all_ne_of_all _ _ (by decide) c h
    · intro hceq
      have := hid1 c h
      rw [hceq] at this
      simp [isCSpace] at this
  rw [strstrIdx_append_shift ['\n'] ("dent:".toList ++ (c0 :: t0))
    ('\n' :: rest) (by simp)
    (noStart_head_ne ['\n'] '\n' rfl _ _ hnotnl)]
  rw [strstrIdx_zero_of_strMatch ['\n'] ('\n' :: rest) (by simp) (by simp [strMatch])]
  simp only [Option.map_some']
  have hfinal : (identTagStr ++ ((c0 :: t0) ++ '\n' :: rest)).drop
      (1 + (0 + ("dent:".toList ++ (c0 :: t0)).length) + 1) = rest := by
    have hsplit : identTagStr ++ ((c0 :: t0) ++ '\n' :: rest) =
        (identTagStr ++ (c0 :: t0) ++ ['\n']) ++ rest := by
      simp
    rw [hsplit]
    apply List.drop_left'
    simp [show identTagStr.length = 6 from rfl, show "dent:".toList.length = 5 from rfl]
    omega
  rw [hfinal]

end ReadidentLemmas

section MasterParseLemmas

/-- Shift variant for a line segment `X ++ '\n' :: rest`. -/
theorem strstrIdx_line_shift (pat X rest : List Char) (hp : pat ≠ [])
    (h : ∀ j, j < X.length + 1 → strMatch pat ((X ++ '\n' :: rest).drop j) = false) :
    strstrIdx pat (X ++ '\n' :: rest) =
      (strstrIdx pat rest).map (· + (X.length + 1)) := by
  have heq : X ++ '\n' :: rest = (X ++ ['\n']) ++ rest := by simp
  rw [heq]
  rw [strstrIdx_append_shift pat (X ++ ['\n']) rest hp (by
    intro j hj
    rw [← heq]
    exact h j (by simpa using hj))]
  simp

/-- The decoder only looks at non-whitespace content. -/
theorem codecDecode_of_filter (s : List Char) (l : List Nat) (hl : l ≠ [])
    (hf : s.filter (fun c => ¬ isCSpace c) = codecEncode l) :
    codecDecode s = some l := by
  unfold codecDecode
  rw [hf]
  have hrt := codecDecode_codecEncode l hl
  unfold codecDecode at hrt
  rwa [List.filter_eq_self.mpr
    (fun c hc => by simp [codecEncode_not_space l c hc])] at hrt

/-- The wrapped payload region (with its trailing newline) contains no dash. -/
theorem payload_region_ne_dash (payload : List Nat) (c : Char)
    (hc : c ∈ wraplines (codecEncode payload) ++ ['\n']) : c ≠ '-' := by
  rcases List.mem_append.mp hc with h | h
  · rcases wraplines_mem _ c h with h2 | rfl
    · exact codecEncode_ne_dash payload c h2
    · intro h3; cases h3
  · rcases List.mem_singleton.mp h with rfl
    intro h3; cases h3

/-- Decode of the wrapped payload region. -/
theorem codecDecode_payload_region (payload : List Nat) (hpay : payload ≠ []) :
    codecDecode (wraplines (codecEncode payload) ++ ['\n']) = some payload := by
  apply codecDecode_of_filter _ _ hpay
  rw [List.filter_append]
  rw [filter_wraplines _ (fun c hc => codecEncode_not_space payload c hc)]
  simp [isCSpace]

/-- Structured-parse lemma: `parsekeydata` on a well-formed armored block
`<BEGIN line><ident line><payload region><END marker...>` recovers the
payload and the (truncated) identity.  `PR` is the payload region (no
dashes, decoding to `payload`); `ES` is whatever follows the END marker.
The side condition on the BEGIN line is decidable per kind. -/
theorem parsekeydata_structured (kind : List Char) (payload : List Nat)
    (id : List Char) (PR ES : List Char)
    (hid1 : ∀ c ∈ id, isCSpace c = false) (hid2 : id ≠ [])
    (hkind_nl : ∀ c ∈ kind, c ≠ '\n')
    (hPRdash : ∀ c ∈ PR, c ≠ '-')
    (hdecPR : codecDecode PR = some payload)
    (hK1 : ∀ j, j < (beginkeyStr ++ kind ++ dashesStr ++ ['\n']).length →
        endkeyStr.length + j ≤ (beginkeyStr ++ kind ++ dashesStr ++ ['\n']).length →
        strMatch endkeyStr ((beginkeyStr ++ kind ++ dashesStr ++ ['\n']).drop j)
          = false) :
    parsekeydata kind
      ((beginkeyStr ++ kind ++ dashesStr ++ ['\n']) ++
        ((identTagStr ++ id) ++ '\n' :: (PR ++ (endkeyStr ++ ES))))
      = some (payload, id.take 63) := by
  have hendne : endkeyStr ≠ [] := by decide
  set X : List Char := identTagStr ++ id with hX
  set K1 : List Char := beginkeyStr ++ kind ++ dashesStr ++ ['\n'] with hK1def
  set EN : List Char := endkeyStr ++ ES with hEN
  set text : List Char := K1 ++ (X ++ '\n' :: (PR ++ EN)) with htext
  -- BEGIN marker and key type
  have hbegin : strMatch beginkeyStr text = true := by
    rw [htext, hK1def]
    have : beginkeyStr ++ kind ++ dashesStr ++ ['\n'] ++
        (X ++ '\n' :: (PR ++ EN)) =
        beginkeyStr ++ (kind ++ dashesStr ++ ['\n'] ++
          (X ++ '\n' :: (PR ++ EN))) := by simp
    rw [this]
    exact strMatch_append ..
  have hkindm : strMatch kind (text.drop 16) = true := by
    rw [htext, hK1def]
    have : beginkeyStr ++ kind ++ dashesStr ++ ['\n'] ++
        (X ++ '\n' :: (PR ++ EN)) =
        beginkeyStr ++ (kind ++ (dashesStr ++ ['\n'] ++
          (X ++ '\n' :: (PR ++ EN)))) := by simp
    rw [this]
    rw [List.drop_left' (by decide : beginkeyStr.length = 16)]
    exact strMatch_append ..
  -- the first END marker occurrence
  have hnoK1 : ∀ j, j < K1.length →
      strMatch endkeyStr ((K1 ++ (X ++ '\n' :: (PR ++ EN))).drop j) = false := by
    apply noStart_concreteBlock endkeyStr K1 _ hK1
    · rw [hK1def]
      have : beginkeyStr ++ kind ++ dashesStr ++ ['\n'] =
          (beginkeyStr ++ kind ++ dashesStr) ++ ['\n'] := by simp
      rw [this]
      exact List.getLast?_concat ..
    · decide
  have hnoX : ∀ j, j < X.length + 1 →
      strMatch endkeyStr ((X ++ '\n' :: (PR ++ EN)).drop j) = false := by
    apply noStart_line endkeyStr (by decide) ' ' (by decide)
    rw [hX]
    intro hmem
    rcases List.mem_append.mp hmem with h | h
    · exact absurd h (by decide)
    · have := hid1 _ h
      simp [isCSpace] at this
  have hnoPR : ∀ j, j < PR.length →
      strMatch endkeyStr ((PR ++ EN).drop j) = false := by
    apply noStart_head_ne endkeyStr '-' (by decide)
    exact hPRdash
  have hENfirst : strstrIdx endkeyStr EN = some 0 := by
    apply strstrIdx_zero_of_strMatch _ _ hendne
    rw [hEN]
    exact strMatch_append ..
  have hend : strstrIdx endkeyStr text =
      some (0 + PR.length + (X.length + 1) + K1.length) := by
    rw [htext]
    rw [strstrIdx_append_shift endkeyStr K1 _ hendne hnoK1]
    rw [strstrIdx_line_shift endkeyStr X _ hendne hnoX]
    rw [strstrIdx_append_shift endkeyStr PR EN hendne hnoPR]
    rw [hENfirst]
    rfl
  -- the truncated text
  have htrunc : text.take (0 + PR.length + (X.length + 1) + K1.length) =
      K1 ++ (X ++ '\n' :: PR) := by
    rw [htext]
    have hsplit : K1 ++ (X ++ '\n' :: (PR ++ EN)) =
        (K1 ++ (X ++ '\n' :: PR)) ++ EN := by simp
    rw [hsplit]
    apply List.take_left'
    simp
    omega
  -- first newline of the truncated text: end of the BEGIN line
  have hnlK : strstrIdx ['\n'] (K1 ++ (X ++ '\n' :: PR)) =
      some (0 + (beginkeyStr ++ kind ++ dashesStr).length) := by
    have hassoc : K1 ++ (X ++ '\n' :: PR) =
        (beginkeyStr ++ kind ++ dashesStr) ++
          ('\n' :: (X ++ '\n' :: PR)) := by
      rw [hK1def]; simp
    rw [hassoc]
    rw [strstrIdx_append_shift ['\n'] _ _ (by simp)
      (noStart_head_ne ['\n'] '\n' rfl _ _ (by
        intro c hc
        rcases List.mem_append.mp hc with h | h
        · rcases List.mem_append.mp h with h2 | h2
          · exact all_ne_of_all beginkeyStr '\n' (by decide) c h2
          · exact hkind_nl c h2
        · exact all_ne_of_all dashesStr '\n' (by decide) c h))]
    rw [strstrIdx_zero_of_strMatch ['\n'] _ (by simp) (by simp [strMatch])]
    simp
  -- the ident line and the payload region
  have hdropident : (K1 ++ (X ++ '\n' :: PR)).drop
      (0 + (beginkeyStr ++ kind ++ dashesStr).length + 1) =
      X ++ '\n' :: PR := by
    have hassoc : K1 ++ (X ++ '\n' :: PR) =
        ((beginkeyStr ++ kind ++ dashesStr) ++ ['\n']) ++
          (X ++ '\n' :: PR) := by
      rw [hK1def]
    rw [hassoc]
    apply List.drop_left'
    simp
    omega
  have hread : readident (X ++ '\n' :: PR) = some (id.take 63, PR) := by
    rw [hX]
    have : (identTagStr ++ id) ++ '\n' :: PR =
        identTagStr ++ (id ++ '\n' :: PR) := by simp
    rw [this]
    exact readident_eq id _ hid1 hid2
  -- assemble
  rw [parsekeydata, hbegin, if_neg (by simp), hkindm, if_neg (by simp), hend]
  simp only [htrunc, hnlK, hdropident, hread, hdecPR]

/-- Master lemma: `parsekeydata` inverts `encodekey` for whitespace-free,
nonempty identities and nonempty payloads, for any block kind whose BEGIN
line contains no `-----END REOP ` substring (a decidable side condition
discharged per kind). -/
theorem parsekeydata_encodekey (kind : List Char) (payload : List Nat)
    (id : List Char) (hpay : payload ≠ [])
    (hid1 : ∀ c ∈ id, isCSpace c = false) (hid2 : id ≠ [])
    (hkind_nl : ∀ c ∈ kind, c ≠ '\n')
    (hK1 : ∀ j, j < (beginkeyStr ++ kind ++ dashesStr ++ ['\n']).length →
        endkeyStr.length + j ≤ (beginkeyStr ++ kind ++ dashesStr ++ ['\n']).length →
        strMatch endkeyStr ((beginkeyStr ++ kind ++ dashesStr ++ ['\n']).drop j)
          = false) :
    parsekeydata kind (encodekey kind payload id) = some (payload, id.take 63) := by
  have hshape : encodekey kind payload id =
      (beginkeyStr ++ kind ++ dashesStr ++ ['\n']) ++
        ((identTagStr ++ id) ++ '\n' ::
          ((wraplines (codecEncode payload) ++ ['\n']) ++
            (endkeyStr ++ (kind ++ dashesStr ++ ['\n'])))) := by
    unfold encodekey
    simp
  rw [hshape]
  exact parsekeydata_structured kind payload id _ _ hid1 hid2 hkind_nl
    (payload_region_ne_dash payload)
    (codecDecode_payload_region payload hpay) hK1

end MasterParseLemmas

section RoundtripLemmas

/-- Armored encode-then-parse of a secret key: succeeds whenever the decode
passphrase derives the same wrapping key, and restores the secret bits. -/
theorem reop_parse_encode_seckey (sk : ReopSeckey) (encPw decPw : String)
    (saltR nonceR : Nat) (hk : sk.kdfalg = KDFALG)
    (hid1 : ∀ c ∈ sk.ident, isCSpace c = false) (hid2 : sk.ident ≠ [])
    (hkey : kdf saltR (if encPw = "" then 0 else 42) decPw
          = kdf saltR (if encPw = "" then 0 else 42) encPw) :
    ∃ sk', reop_parseseckey (reop_encodeseckey sk encPw saltR nonceR) decPw
        = some sk' ∧
      sk'.sigkey = sk.sigkey ∧ sk'.enckey = sk.enckey ∧
      sk'.randomid = sk.randomid ∧
      sk'.kdfrounds = (if encPw = "" then 0 else 42) := by
  unfold reop_encodeseckey reop_parseseckey
  have hparse := parsekeydata_encodekey "SECRET KEY".toList
    (serializeSeckey (encryptseckey sk encPw saltR nonceR)) sk.ident
    (serializeSeckey_ne_nil _) hid1 hid2
    (all_ne_of_all _ _ (by decide)) (by decide)
  have hswap : { encryptseckey sk encPw saltR nonceR with
      ident := sk.ident.take 63 } =
      encryptseckey { sk with ident := sk.ident.take 63 } encPw saltR nonceR := rfl
  obtain ⟨sk', heq, h1, h2, h3, h4⟩ :=
    decryptseckey_encryptseckey { sk with ident := sk.ident.take 63 }
      encPw decPw saltR nonceR hk hkey
  simp only [hparse, parseSeckeyPayload_serialize, hswap, heq]
  exact ⟨sk', rfl, h1, h2, h3, h4⟩

/-- Armored encode-then-parse of a public key is the identity for
whitespace-free nonempty identities of at most 63 bytes. -/
theorem reop_parse_encode_pubkey (pk : ReopPubkey)
    (hid1 : ∀ c ∈ pk.ident, isCSpace c = false) (hid2 : pk.ident ≠ [])
    (hlen : pk.ident.length ≤ 63) :
    reop_parsepubkey (reop_encodepubkey pk) = some pk := by
  unfold reop_encodepubkey reop_parsepubkey
  have hparse := parsekeydata_encodekey "PUBLIC KEY".toList (serializePubkey pk)
    pk.ident (serializePubkey_ne_nil _) hid1 hid2
    (all_ne_of_all _ _ (by decide)) (by decide)
  simp only [hparse, parsePubkeyPayload_serialize, List.take_of_length_le hlen]

end RoundtripLemmas

section EmbeddedLemmas

/-- Decode of the `writeb64data` payload region of an embedded signature. -/
theorem codecDecode_writeb64_region (payload : List Nat) (hpay : payload ≠ []) :
    codecDecode (writeb64data (codecEncode payload)) = some payload := by
  apply codecDecode_of_filter _ _ hpay
  exact filter_writeb64data _ (fun c hc => codecEncode_not_space payload c hc)

/-- The `writeb64data` payload region contains no dash. -/
theorem writeb64_region_ne_dash (payload : List Nat) (c : Char)
    (hc : c ∈ writeb64data (codecEncode payload)) : c ≠ '-' := by
  rcases writeb64data_mem _ c hc with h | rfl
  · exact codecEncode_ne_dash payload c h
  · intro h2; cases h2

/-- Parsing the signature block written by `writesignedmsg` (its END marker
is the SIGNED MESSAGE end line, whose kind `parsekeydata` does not check). -/
theorem reop_parsesig_block (sig : ReopSig) (id : List Char)
    (hid1 : ∀ c ∈ id, isCSpace c = false) (hid2 : id ≠ []) :
    reop_parsesig (beginsigStr ++
      ((identTagStr ++ id) ++ '\n' ::
        (writeb64data (codecEncode (serializeSig sig)) ++ endsignedStr))) =
      some { sig with ident := id.take 63 } := by
  unfold reop_parsesig
  have hbs : beginsigStr =
      beginkeyStr ++ "SIGNATURE".toList ++ dashesStr ++ ['\n'] := by decide
  have hes : endsignedStr = endkeyStr ++ "SIGNED MESSAGE-----\n".toList := by
    decide
  rw [hbs, hes]
  have hparse := parsekeydata_structured "SIGNATURE".toList (serializeSig sig)
    id (writeb64data (codecEncode (serializeSig sig)))
    "SIGNED MESSAGE-----\n".toList hid1 hid2
    (all_ne_of_all _ _ (by decide))
    (writeb64_region_ne_dash (serializeSig sig))
    (codecDecode_writeb64_region _ (serializeSig_ne_nil sig))
    (by decide)
  simp only [hparse, parseSigPayload_serialize]

/-- Embedded verification of a `writesignedmsg` output recovers exactly the
message span (whatever the message contains) and verifies it against the
parsed signature. -/
theorem verifyembedded_writesignedmsg (pk : ReopPubkey) (sig : ReopSig)
    (id msg : List Char)
    (hid1 : ∀ c ∈ id, isCSpace c = false) (hid2 : id ≠ []) :
    verifyembedded pk (writesignedmsg sig id msg) =
      some (msg, reop_verify pk msg { sig with ident := id.take 63 }) := by
  set W : List Char := writeb64data (codecEncode (serializeSig sig)) with hW
  set R : List Char := (identTagStr ++ id) ++ '\n' :: (W ++ endsignedStr) with hR
  have hshape : writesignedmsg sig id msg =
      beginmsgStr ++ (msg ++ (beginsigStr ++ R)) := by
    unfold writesignedmsg
    rw [hR, hW]
    simp
  set L : Nat := msg.length with hL
  have hbm : strMatch beginmsgStr (writesignedmsg sig id msg) = true := by
    rw [hshape]; exact strMatch_append ..
  have hdrop36 : (writesignedmsg sig id msg).drop 36 =
      msg ++ (beginsigStr ++ R) := by
    rw [hshape]; exact List.drop_left' (by decide)
  have hmatchL : strMatch beginsigStr ((msg ++ (beginsigStr ++ R)).drop L)
      = true := by
    rw [hL, List.drop_left]
    exact strMatch_append ..
  -- no occurrence of the signature opener after position L
  have hafter : strstrIdx beginsigStr ((msg ++ (beginsigStr ++ R)).drop (L + 1))
      = none := by
    have hd1 : (msg ++ (beginsigStr ++ R)).drop (L + 1) =
        (beginsigStr ++ R).drop 1 := by
      rw [hL]
      exact List.drop_append 1
    have hd2 : (beginsigStr ++ R).drop 1 =
        "----BEGIN REOP SIGNATURE-----\n".toList ++ R := by
      have : beginsigStr ++ R =
          '-' :: ("----BEGIN REOP SIGNATURE-----\n".toList ++ R) := rfl
      rw [this]
      rfl
    rw [hd1, hd2, hR]
    have hT1 : ∀ j, j < "----BEGIN REOP SIGNATURE-----\n".toList.length →
        strMatch beginsigStr
          (("----BEGIN REOP SIGNATURE-----\n".toList ++
            ((identTagStr ++ id) ++ '\n' :: (W ++ endsignedStr))).drop j)
          = false := by
      apply noStart_concreteBlock
      · decide
      · decide
      · decide
    rw [strstrIdx_append_shift _ _ _ (by decide) hT1]
    have hX : ∀ j, j < (identTagStr ++ id).length + 1 →
        strMatch beginsigStr
          (((identTagStr ++ id) ++ '\n' :: (W ++ endsignedStr)).drop j)
          = false := by
      apply noStart_line beginsigStr (by decide) ' ' (by decide)
      intro hmem
      rcases List.mem_append.mp hmem with h | h
      · exact absurd h (by decide)
      · have := hid1 _ h
        simp [isCSpace] at this
    rw [strstrIdx_line_shift _ _ _ (by decide) hX]
    have hWno : ∀ j, j < W.length →
        strMatch beginsigStr ((W ++ endsignedStr).drop j) = false := by
      apply noStart_head_ne beginsigStr '-' (by decide)
      intro c hc
      exact writeb64_region_ne_dash (serializeSig sig) c (hW ▸ hc)
    rw [strstrIdx_append_shift _ _ _ (by decide) hWno]
    rw [show strstrIdx beginsigStr endsignedStr = none from by decide]
    rfl
  -- there is an occurrence, so the search finds a first one at or before L
  cases hfind : strstrIdx beginsigStr (msg ++ (beginsigStr ++ R)) with
  | none =>
    rw [strstrIdx_eq_none_iff _ (by decide)] at hfind
    rw [hfind L] at hmatchL
    cases hmatchL
  | some i0 =>
    obtain ⟨hm0, hmin0⟩ :=
      (strstrIdx_eq_some_iff _ (by decide) _ i0).mp hfind
    have hi0L : i0 ≤ L := by
      by_contra hgt
      rw [hmin0 L (by omega)] at hmatchL
      cases hmatchL
    -- the advance-to-last loop lands on L
    have hloop : lastLoopF (msg ++ (beginsigStr ++ R)).length beginsigStr
        (msg ++ (beginsigStr ++ R)) i0 = L := by
      apply lastLoopF_eq beginsigStr _ (by decide) L hmatchL hafter _ i0 hi0L
      have : L < (msg ++ (beginsigStr ++ R)).length := by
        rw [hL]
        simp
        have : beginsigStr ≠ [] := by decide
        cases hb : beginsigStr with
        | nil => exact absurd hb this
        | cons a t => simp
      omega
    have htakeL : (msg ++ (beginsigStr ++ R)).take L = msg := by
      rw [hL]; exact List.take_left ..
    have hdropL : (msg ++ (beginsigStr ++ R)).drop L = beginsigStr ++ R := by
      rw [hL]; exact List.drop_left ..
    have hparse := reop_parsesig_block sig id hid1 hid2
    rw [← hR] at hparse
    rw [verifyembedded]
    simp only [hbm, hdrop36, hfind, hloop, htakeL, hdropL, hparse]
    simp

end EmbeddedLemmas

/-! ## Concrete fixtures used by witnesses and counterexamples -/

/-- A concrete generated keypair (scalars 5/7, randomid 9, ident "alice"). -/
def aliceKeys : ReopPubkey × ReopSeckey :=
  reop_generate "alice".toList ⟨5, 7, 9⟩

/-- Scenario S5 plaintext: contains the literal SIGNATURE opener as a decoy. -/
def decoyMsg : List Char := "abc\n-----BEGIN REOP SIGNATURE-----\nfake\n".toList

/-! ## Claims -/

set_option maxRecDepth 4000 in
/-- C1 (counterexample): a secret key encoded with the empty passphrase and
decoded with the *non-empty* passphrase "x" does not fail with `auth_fail`;
the decode succeeds and returns the secret bits (5, 7).  The stored
kdfrounds value 0 makes `kdf` return the all-zero key without consulting
the supplied passphrase. -/
theorem claim_C1_counterexample :
    (reop_parseseckey (reop_encodeseckey aliceKeys.2 "" 1 2) "x").map
      (fun k => (k.sigkey, k.enckey)) = some (5, 7) := by decide

/-- C1 (amended): a secret key encoded with the empty passphrase stores
kdfrounds 0 (all-zero derived key, no bcrypt call, but the authenticated box
still computed and verified on load), decodes successfully with the empty
passphrase — and equally with *any* passphrase, because the stored round
count 0 makes the KDF ignore the passphrase entirely — reproducing the
secret material. -/
theorem claim_C1_zero_rounds_seckey (sk : ReopSeckey) (pw : String)
    (saltR nonceR : Nat) (hk : sk.kdfalg = KDFALG)
    (hid1 : ∀ c ∈ sk.ident, isCSpace c = false) (hid2 : sk.ident ≠ []) :
    (encryptseckey sk "" saltR nonceR).kdfrounds = 0 ∧
    ∃ sk', reop_parseseckey (reop_encodeseckey sk "" saltR nonceR) pw
        = some sk' ∧
      sk'.sigkey = sk.sigkey ∧ sk'.enckey = sk.enckey ∧ sk'.kdfrounds = 0 := by
  constructor
  · simp [encryptseckey]
  · obtain ⟨sk', heq, h1, h2, h3, h4⟩ :=
      reop_parse_encode_seckey sk "" pw saltR nonceR hk hid1 hid2 (by simp [kdf])
    simp only [if_pos rfl] at h4
    exact ⟨sk', heq, h1, h2, h4⟩

/-- C1 witness: the amended claim at the concrete fixture, decoded with the
non-empty passphrase "x". -/
theorem claim_C1_zero_rounds_seckey_witness :
    (encryptseckey aliceKeys.2 "" 1 2).kdfrounds = 0 ∧
    ∃ sk', reop_parseseckey (reop_encodeseckey aliceKeys.2 "" 1 2) "x"
        = some sk' ∧
      sk'.sigkey = aliceKeys.2.sigkey ∧ sk'.enckey = aliceKeys.2.enckey ∧
      sk'.kdfrounds = 0 :=
  claim_C1_zero_rounds_seckey aliceKeys.2 "x" 1 2 (by decide) (by decide)
    (by decide)

/-- C2: for any two generated keypairs (sender S, recipient R) and any
message, encrypting with `reop_pubencrypt(R.pub, S.sec, m)` and decrypting
with `reop_pubdecrypt` under R's secret key and S's public key returns ok
and recovers exactly m; the envelope carries the current `eC` tag. -/
theorem claim_C2_pubencrypt_roundtrip (identS identR : List Char)
    (rS rR : GenRand) (msg : List Nat) (eph n1 n2 : Nat) :
    reop_pubdecrypt
        (reop_pubencrypt (reop_generate identR rR).1 (reop_generate identS rS).2
          msg eph n1 n2).1
        (reop_generate identS rS).1 (reop_generate identR rR).2
        (reop_pubencrypt (reop_generate identR rR).1 (reop_generate identS rS).2
          msg eph n1 n2).2
      = ReopDecryptResult.ok msg ∧
    (reop_pubencrypt (reop_generate identR rR).1 (reop_generate identS rS).2
      msg eph n1 n2).1.encalg = ENCALG := by
  constructor
  · simp only [reop_generate, reop_pubencrypt, reop_pubdecrypt, pubencryptraw,
      pubdecryptraw, maskBuf, List.map_cons, List.map_nil, List.getD_cons_zero]
    rw [if_neg (by simp)]
    rw [if_neg (by simp [ENCKEYALG])]
    rw [if_neg (by simp [ENCKEYALG])]
    rw [sharedOf_comm rS.encsk rR.encsk]
    rw [if_pos rfl]
    simp only [List.getD_cons_zero, Nat.xor_assoc, Nat.xor_self, Nat.xor_zero]
    rw [sharedOf_comm eph rR.encsk]
    rw [if_pos rfl]
    simp only [List.map_map]
    rw [← List.map_map]
    show ReopDecryptResult.ok
      (maskBuf (sharedOf rR.encsk eph) n1
        (maskBuf (sharedOf rR.encsk eph) n1 msg)) = _
    rw [maskBuf_maskBuf]
  · rfl

/-- C3: signatures produced by `reop_sign` with a generated keypair's secret
key verify as ok under the same keypair's public key, for every message. -/
theorem claim_C3_sign_verify_roundtrip (ident : List Char) (r : GenRand)
    (msg : List Char) :
    reop_verify (reop_generate ident r).1 msg
      (reop_sign (reop_generate ident r).2 msg) = ReopVerifyResult.ok := by
  simp [reop_generate, reop_sign, reop_verify, verifyraw, signraw]

/-- C4: detached verification returns mismatch whenever the randomids
differ — for every value of the signature bytes and keys, so the
verification primitive's result is irrelevant there — and when the
randomids are equal the primitive decides: ok on success, fail on library
failure; moreover with equal randomids but a signature made by a different
signing key the result is fail. -/
theorem claim_C4_verify_dispatch (pk : ReopPubkey) (msg : List Char)
    (sig : ReopSig) :
    (pk.randomid ≠ sig.randomid →
      reop_verify pk msg sig = ReopVerifyResult.mismatch) ∧
    (pk.randomid = sig.randomid →
      reop_verify pk msg sig =
        if verifyraw pk.sigkey (msg.map Char.toNat) sig.sig
        then ReopVerifyResult.ok else ReopVerifyResult.fail) ∧
    (pk.randomid = sig.randomid → ∀ k m2, sig.sig = EdSig.signed k m2 →
      k ≠ pk.sigkey → reop_verify pk msg sig = ReopVerifyResult.fail) := by
  refine ⟨fun h => ?_, fun h => ?_, fun h k m2 hs hk => ?_⟩
  · rw [reop_verify, if_pos h]
  · rw [reop_verify, if_neg (by simp [h])]
  · rw [reop_verify, if_neg (by simp [h])]
    rw [if_neg]
    simp only [verifyraw, hs, beq_iff_eq]
    intro hcon
    injection hcon with h1 h2
    exact hk h1

/-- Fixture for the C4 witness: a public key with randomid 9 / sigkey 11. -/
def pkW : ReopPubkey :=
  { sigalg := SIGALG
    encalg := ENCKEYALG
    randomid := 9
    sigkey := 11
    enckey := 12
    ident := "w".toList }

/-- Fixture: a valid signature for `pkW` over "h". -/
def sigW : ReopSig :=
  { sigalg := SIGALG
    randomid := 9
    sig := EdSig.signed 11 ("h".toList.map Char.toNat)
    ident := "w".toList }

/-- Fixture: the same signature carrying a foreign randomid. -/
def sigM : ReopSig :=
  { sigW with randomid := 8 }

/-- C4 witness. -/
theorem claim_C4_verify_dispatch_witness :
    reop_verify pkW "h".toList sigM = ReopVerifyResult.mismatch ∧
    reop_verify pkW "h".toList sigW = ReopVerifyResult.ok := by
  constructor
  · exact (claim_C4_verify_dispatch pkW "h".toList sigM).1 (by decide)
  · rw [(claim_C4_verify_dispatch pkW "h".toList sigW).2.1 (by decide)]
    decide

/-- C5: encoding a secret key to its armored string with a passphrase and
parsing the string back with the same passphrase succeeds and reproduces
the plaintext secret-key bits exactly (for a well-formed key: BK kdfalg, as
all generated keys have, and an armor-representable identity). -/
theorem claim_C5_seckey_encode_decode (sk : ReopSeckey) (pw : String)
    (saltR nonceR : Nat) (hk : sk.kdfalg = KDFALG)
    (hid1 : ∀ c ∈ sk.ident, isCSpace c = false) (hid2 : sk.ident ≠ []) :
    ∃ sk', reop_parseseckey (reop_encodeseckey sk pw saltR nonceR) pw
        = some sk' ∧
      sk'.sigkey = sk.sigkey ∧ sk'.enckey = sk.enckey := by
  obtain ⟨sk', heq, h1, h2, h3, h4⟩ :=
    reop_parse_encode_seckey sk pw pw saltR nonceR hk hid1 hid2 rfl
  exact ⟨sk', heq, h1, h2⟩

/-- C5 witness: the concrete fixture, passphrase "pw". -/
theorem claim_C5_seckey_encode_decode_witness :
    ∃ sk', reop_parseseckey (reop_encodeseckey aliceKeys.2 "pw" 1 2) "pw"
        = some sk' ∧
      sk'.sigkey = aliceKeys.2.sigkey ∧ sk'.enckey = aliceKeys.2.enckey :=
  claim_C5_seckey_encode_decode aliceKeys.2 "pw" 1 2 (by decide) (by decide)
    (by decide)

/-- Fixture for C6: a legacy CS envelope whose pubrandomid (7) matches the
supplied *secret* key's randomid but whose secrandomid (99) matches
neither key. -/
def oldEnvelope6 : OldEncmsg :=
  { encalg := OLDENCALG
    secrandomid := 99
    pubrandomid := 7
    nonce := 5
    tag := (pubencryptraw [42] 5 6 33).2 }

/-- Fixture for C6: supplied public key, randomid 1. -/
def mismatchPub6 : ReopPubkey :=
  { sigalg := SIGALG
    encalg := ENCKEYALG
    randomid := 1
    sigkey := 2
    enckey := 6
    ident := [] }

/-- Fixture for C6: supplied secret key, randomid 7. -/
def mismatchSec6 : ReopSeckey :=
  { sigalg := SIGALG
    encalg := ENCKEYALG
    symalg := SYMALG
    kdfalg := KDFALG
    randomid := 7
    kdfrounds := 0
    salt := 0
    nonce := 0
    tag := SymTag.raw 0
    sigkey := 3
    enckey := 33
    ident := [] }

/-- C6: at the failing input, the envelope's secrandomid (99) matches
neither supplied key, so under the claim neither assignment of the pair
matches both fields and the operation should reject with a key mismatch
before decrypting; the code's duplicated comparison instead lets it through
to decryption, which succeeds. -/
theorem claim_C6_oldenc_missing_check :
    oldEnvelope6.pubrandomid ≠ mismatchPub6.randomid ∧
    oldEnvelope6.pubrandomid = mismatchSec6.randomid ∧
    oldEnvelope6.secrandomid ≠ mismatchSec6.randomid ∧
    oldEnvelope6.secrandomid ≠ mismatchPub6.randomid ∧
    decryptOldenc oldEnvelope6 mismatchPub6 mismatchSec6
        (pubencryptraw [42] 5 6 33).1
      = ReopDecryptResult.ok [42] := by decide

/-- Fixture for C7: a public key with randomid 9 / sigkey 11. -/
def pk7 : ReopPubkey :=
  { sigalg := SIGALG
    encalg := ENCKEYALG
    randomid := 9
    sigkey := 11
    enckey := 12
    ident := "p".toList }

/-- Fixture for C7: a valid signature for `pk7` whose sigalg is "XX". -/
def sig7 : ReopSig :=
  { sigalg := 0x5858
    randomid := 9
    sig := EdSig.signed 11 ("h".toList.map Char.toNat)
    ident := "p".toList }

/-- Fixture for C7: a symmetric header whose symalg is "XX" but whose
contents are otherwise consistent. -/
def sym7x : ReopSymmsg :=
  { (reop_symencrypt [42] "pw" 4 6).1 with symalg := 0x5858 }

/-- C7 (counterexample): `reop_verify` accepts a signature whose sigalg is
not "Ed", and `reop_symdecrypt` accepts a header whose symalg is not "SP" —
neither operation examines those tags, contradicting the claim that every
operation rejects any deviating 2-byte tag. -/
theorem claim_C7_counterexample :
    (sig7.sigalg ≠ SIGALG ∧
      reop_verify pk7 "h".toList sig7 = ReopVerifyResult.ok) ∧
    (sym7x.symalg ≠ SYMALG ∧
      reop_symdecrypt sym7x "pw" (reop_symencrypt [42] "pw" 4 6).2
        = ReopDecryptResult.ok [42]) := by decide

/-- C7 (amended): the kdfalg tag is checked — secret-key decryption rejects
a key whose kdfalg is not "BK" and symmetric decryption rejects a header
whose kdfalg is not "BK" — but `reop_verify` does not examine the
signature's sigalg and `reop_symdecrypt` does not examine the header's
symalg (symalg selects the branch only at envelope dispatch). -/
theorem claim_C7_kdfalg_only (sk : ReopSeckey) (symmsg : ReopSymmsg)
    (pw : String) (msg : List Nat) (pk : ReopPubkey) (m : List Char)
    (sig : ReopSig) (a b : Nat) :
    (sk.kdfalg ≠ KDFALG → decryptseckey sk pw = SeckeyDecryptResult.badkdf) ∧
    (symmsg.kdfalg ≠ KDFALG →
      reop_symdecrypt symmsg pw msg = ReopDecryptResult.invalid) ∧
    reop_verify pk m { sig with sigalg := a } = reop_verify pk m sig ∧
    reop_symdecrypt { symmsg with symalg := b } pw msg
      = reop_symdecrypt symmsg pw msg := by
  refine ⟨fun h => ?_, fun h => ?_, rfl, rfl⟩
  · rw [decryptseckey, if_pos h]
  · rw [reop_symdecrypt, if_pos h]

/-- Fixture for the C7 witness: a secret key with kdfalg "XX". -/
def skbad7 : ReopSeckey :=
  { mismatchSec6 with kdfalg := 0x5858 }

/-- Fixture for the C7 witness: a symmetric header with kdfalg "XX". -/
def symbad7 : ReopSymmsg :=
  { (reop_symencrypt [42] "pw" 4 6).1 with kdfalg := 0x5858 }

/-- C7 witness. -/
theorem claim_C7_kdfalg_only_witness :
    decryptseckey skbad7 "x" = SeckeyDecryptResult.badkdf ∧
    reop_symdecrypt symbad7 "x" [1] = ReopDecryptResult.invalid :=
  ⟨(claim_C7_kdfalg_only skbad7 symbad7 "x" [1] pk7 [] sig7 0 0).1 (by decide),
   (claim_C7_kdfalg_only skbad7 symbad7 "x" [1] pk7 [] sig7 0 0).2.1
     (by decide)⟩

/-- C8: embedded-signature verification takes the message span to be the
bytes between the end of the SIGNED MESSAGE opener and the *last*
occurrence of the SIGNATURE opener, so for every generated keypair and
every message — in particular one containing the literal decoy
`-----BEGIN REOP SIGNATURE-----` — signing, writing the embedded file and
verifying it returns ok with the full plaintext (decoy line included)
recovered. -/
theorem claim_C8_embedded_last_signature (ident msg : List Char) (r : GenRand)
    (hid1 : ∀ c ∈ ident, isCSpace c = false) (hid2 : ident ≠ []) :
    verifyembedded (reop_generate ident r).1
      (writesignedmsg (reop_sign (reop_generate ident r).2 msg)
        (reop_sign (reop_generate ident r).2 msg).ident msg)
      = some (msg, ReopVerifyResult.ok) := by
  have hident_eq : (reop_sign (reop_generate ident r).2 msg).ident =
      (ident.take 63).take 63 := rfl
  have hsid1 : ∀ c ∈ (reop_sign (reop_generate ident r).2 msg).ident,
      isCSpace c = false := by
    rw [hident_eq]
    intro c hc
    exact hid1 c (List.mem_of_mem_take (List.mem_of_mem_take hc))
  have hsid2 : (reop_sign (reop_generate ident r).2 msg).ident ≠ [] := by
    rw [hident_eq]
    simp only [List.take_take]
    simp [List.take_eq_nil_iff, hid2]
  rw [verifyembedded_writesignedmsg _ _ _ _ hsid1 hsid2]
  have hok : reop_verify (reop_generate ident r).1 msg
      { reop_sign (reop_generate ident r).2 msg with
        ident := (reop_sign (reop_generate ident r).2 msg).ident.take 63 }
      = ReopVerifyResult.ok := by
    simp [reop_verify, reop_sign, reop_generate, verifyraw, signraw]
  rw [hok]

/-- C8 witness: scenario S5 — the plaintext is exactly
"abc\n-----BEGIN REOP SIGNATURE-----\nfake\n", and verification recovers it
in full with result ok. -/
theorem claim_C8_embedded_last_signature_witness :
    verifyembedded aliceKeys.1
      (writesignedmsg (reop_sign aliceKeys.2 decoyMsg)
        (reop_sign aliceKeys.2 decoyMsg).ident decoyMsg)
      = some (decoyMsg, ReopVerifyResult.ok) :=
  claim_C8_embedded_last_signature "alice".toList decoyMsg ⟨5, 7, 9⟩
    (by decide) (by decide)

/-- Fixture for C9: a public key whose identity contains a space. -/
def spacedPubkey : ReopPubkey :=
  { sigalg := SIGALG
    encalg := ENCKEYALG
    randomid := 3
    sigkey := 4
    enckey := 6
    ident := "a b".toList }

set_option maxRecDepth 4000 in
/-- C9 (counterexample): encoding a key with the 3-byte identity "a b" and
parsing the result yields the identity "a" — not all bytes to the next
newline — because `sscanf`'s `%63s` stops at whitespace. -/
theorem claim_C9_counterexample :
    spacedPubkey.ident = ['a', ' ', 'b'] ∧
    (reop_parsepubkey (reop_encodepubkey spacedPubkey)).map (fun k => k.ident)
      = some ['a'] := by decide

/-- C9 (amended): parsing reads the identity as the first
whitespace-delimited token after `ident:` (at most 63 bytes), not all bytes
to the newline; consequently encode-then-parse returns the identical
identity for every nonempty, whitespace-free identity of at most 63
bytes — and then the whole key round-trips. -/
theorem claim_C9_ident_token (pk : ReopPubkey)
    (hid1 : ∀ c ∈ pk.ident, isCSpace c = false) (hid2 : pk.ident ≠ [])
    (hlen : pk.ident.length ≤ 63) :
    reop_parsepubkey (reop_encodepubkey pk) = some pk :=
  reop_parse_encode_pubkey pk hid1 hid2 hlen

/-- Fixture for the C9 witness: a public key with identity "bob". -/
def bobPubkey : ReopPubkey :=
  { sigalg := SIGALG
    encalg := ENCKEYALG
    randomid := 13
    sigkey := 14
    enckey := 15
    ident := "bob".toList }

/-- C9 witness. -/
theorem claim_C9_ident_token_witness :
    reop_parsepubkey (reop_encodepubkey bobPubkey) = some bobPubkey :=
  claim_C9_ident_token bobPubkey (by decide) (by decide) (by decide)

/-- C10: the result of `reop_verify` depends only on the public key's
randomid and signing key, the signature's randomid and signature bytes, and
the message: changing the ident fields, the sigalg fields, or the public
key's encalg or encryption key in any way leaves the result unchanged — in
particular the identity carried in a signature is not authenticated. -/
theorem claim_C10_verify_field_independence (pk : ReopPubkey)
    (msg : List Char) (sig : ReopSig) (ia ib : List Char) (sa ea ek sb : Nat) :
    reop_verify { pk with ident := ia, sigalg := sa, encalg := ea, enckey := ek }
        msg { sig with ident := ib, sigalg := sb }
      = reop_verify pk msg sig := rfl
